import Mathlib

/-!
Verification of the core of a small in-memory key-value server speaking the
RESP wire protocol (files `parser.rs`, `commands.rs`, `db.rs`).

The Rust code is shallowly embedded:
* byte buffers are `List Nat` (each element a byte value);
* Rust `String` values are represented by the `List Nat` of their UTF-8 bytes;
* `usize` arithmetic that can wrap in release builds is made explicit with
  `% 2 ^ 64`, and Rust slice expressions (which panic when out of range) are
  modelled by `rustSlice`, with a distinguished `panicked` outcome;
* `Instant` is modelled as a `Nat` time-stamp passed explicitly (`now`);
* the shared store (`Arc<Mutex<HashMap<String, DbValue>>>`) is modelled as a
  map `List Nat → Option DbValue`, commands executing atomically against it.

Error messages that Rust obtains by formatting `std` errors
(`ParseIntError`, `Utf8Error`) are abstracted to fixed strings; no theorem
depends on message contents, only on the error constructor.
-/

/-! ## Wire decoder: data model (`parser.rs`) -/

/-- Model of `RespValue` from `parser.rs`.  `SimpleString(String)` is represented by
the UTF-8 bytes of the string, `BulkString(Vec<u8>)` by its bytes. -/
inductive RespValue where
  | simpleString (s : List Nat)
  | integer (i : Int)
  | bulkString (bs : List Nat)
  | array (elems : List RespValue)
  | null

/-- Model of `ParserError` from `parser.rs`.  The `InvalidFormat` message is kept as a
plain string (messages derived from `std` error formatting are abstracted). -/
inductive ParserError where
  | incomplete
  | invalidFormat (msg : String)
deriving DecidableEq

/-- Outcome of a Rust function returning `Result<(α, usize), ParserError>`,
with an extra `panicked` constructor modelling a Rust panic (arithmetic
overflow / out-of-range slice / `Vec` capacity overflow). -/
inductive PResult (α : Type) where
  | ok (val : α) (consumed : Nat)
  | err (e : ParserError)
  | panicked

/-- Rust `buffer.windows(2).position(|w| w == b"\r\n")`: index of the first
occurrence of the two-byte window `\r\n` (13, 10). -/
def findCRLF : List Nat → Option Nat
  | [] => none
  | [_] => none
  | a :: b :: rest =>
    if a = 13 ∧ b = 10 then some 0 else (findCRLF (b :: rest)).map (· + 1)

/-- Rust `RespValue::parse_line`: the slice `buffer[1..pos]` together with
`pos + 2` consumed bytes, or `Incomplete` when no CRLF exists yet.
(`buffer[1..pos]` is total here via `take`/`drop`; every caller passes a
buffer whose first byte is a type marker, so `pos ≥ 1` and the Rust slice is
in bounds.) -/
def parseLine (buffer : List Nat) : PResult (List Nat) :=
  match findCRLF buffer with
  | some pos => .ok ((buffer.take pos).drop 1) (pos + 2)
  | none => .err .incomplete

/-- Rust's UTF-8 validation (`std::str::from_utf8`), byte-level: the exact
accepting ranges, including the rejection of overlong encodings and
surrogates. -/
def contB (b : Nat) : Bool := 128 ≤ b && b ≤ 191

/-- Allowed range for the second byte of a multi-byte sequence, per leader. -/
def sndLo (b : Nat) : Nat := if b = 224 then 160 else if b = 240 then 144 else 128

/-- Allowed range for the second byte of a multi-byte sequence, per leader. -/
def sndHi (b : Nat) : Nat := if b = 237 then 159 else if b = 244 then 143 else 191

/-- Second-byte check for 3- and 4-byte leaders. -/
def sndOK (b c : Nat) : Bool := sndLo b ≤ c && c ≤ sndHi b

/-- Rust `std::str::from_utf8(..).is_ok()` on a byte list. -/
def isValidUTF8 : List Nat → Bool
  | [] => true
  | b :: rest =>
    if b < 128 then isValidUTF8 rest
    else if 194 ≤ b && b ≤ 223 then
      match rest with
      | [] => false
      | c :: r2 => contB c && isValidUTF8 r2
    else if 224 ≤ b && b ≤ 239 then
      match rest with
      | [] => false
      | c :: r2 =>
        sndOK b c &&
          (match r2 with
           | [] => false
           | d :: r3 => contB d && isValidUTF8 r3)
    else if 240 ≤ b && b ≤ 244 then
      match rest with
      | [] => false
      | c :: r2 =>
        sndOK b c &&
          (match r2 with
           | [] => false
           | d :: r3 =>
             contB d &&
               (match r3 with
                | [] => false
                | e2 :: r4 => contB e2 && isValidUTF8 r4))
    else false

/-- A decimal digit byte. -/
def isDigitB (b : Nat) : Bool := 48 ≤ b && b ≤ 57

/-- Accumulating digit evaluation used by the integer-parsing model. -/
def digitsValGo (acc : Nat) : List Nat → Option Nat
  | [] => some acc
  | b :: r => if isDigitB b then digitsValGo (acc * 10 + (b - 48)) r else none

/-- Value of a non-empty all-digit byte string (`none` otherwise). -/
def digitsVal : List Nat → Option Nat
  | [] => none
  | b :: r => digitsValGo 0 (b :: r)

/-- Rust `str::parse::<i64>` (also `isize` on the 64-bit target): an optional
sign followed by at least one digit, failing when the value overflows.
Checked accumulation in Rust succeeds exactly when the mathematical value is
in range, which is what is tested here. -/
def rustParseI64 (l : List Nat) : Option Int :=
  match l with
  | [] => none
  | b :: rest =>
    if b = 43 then
      match digitsVal rest with
      | some n => if n ≤ 2 ^ 63 - 1 then some (n : Int) else none
      | none => none
    else if b = 45 then
      match digitsVal rest with
      | some n => if n ≤ 2 ^ 63 then some (-(n : Int)) else none
      | none => none
    else
      match digitsVal (b :: rest) with
      | some n => if n ≤ 2 ^ 63 - 1 then some (n : Int) else none
      | none => none

/-- Rust `str::parse::<u64>`: optional `+` sign then digits, value `< 2^64`. -/
def rustParseU64 (l : List Nat) : Option Nat :=
  match l with
  | [] => none
  | b :: rest =>
    if b = 43 then
      match digitsVal rest with
      | some n => if n < 2 ^ 64 then some n else none
      | none => none
    else
      match digitsVal (b :: rest) with
      | some n => if n < 2 ^ 64 then some n else none
      | none => none

/-- The `usize` modulus of the 64-bit target. -/
def W64 : Nat := 2 ^ 64

/-- Rust `i as usize` (two's-complement reinterpretation of an `isize`). -/
def usizeOfInt (i : Int) : Nat := (i % (W64 : Int)).toNat

/-- Rust slice `&l[a..b]`, which panics unless `a ≤ b ≤ l.length`. -/
def rustSlice (l : List Nat) (a b : Nat) : Option (List Nat) :=
  if a ≤ b ∧ b ≤ l.length then some ((l.take b).drop a) else none

/-- Rust `RespValue::parse_integer`. -/
def parseInteger (buffer : List Nat) : PResult RespValue :=
  match parseLine buffer with
  | .ok line consumed =>
    if isValidUTF8 line then
      match rustParseI64 line with
      | some v => .ok (.integer v) consumed
      | none => .err (.invalidFormat "invalid integer")
    else .err (.invalidFormat "invalid utf-8")
  | .err e => .err e
  | .panicked => .panicked

/-- Rust `RespValue::parse_simple_string`. -/
def parseSimpleString (buffer : List Nat) : PResult RespValue :=
  match parseLine buffer with
  | .ok line consumed =>
    if isValidUTF8 line then .ok (.simpleString line) consumed
    else .err (.invalidFormat "invalid utf-8")
  | .err e => .err e
  | .panicked => .panicked

/-- Rust `RespValue::parse_bulk_string`, with release-mode `usize` semantics made
explicit: `len as usize` is a two's-complement cast, `total_len` is computed
mod `2^64`, and the two slice expressions panic when out of range.  (In a
debug build the additions would already panic on overflow for the inputs on
which this model reports `panicked`.) -/
def parseBulkString (buffer : List Nat) : PResult RespValue :=
  match parseLine buffer with
  | .ok lenBytes headerConsumed =>
    if isValidUTF8 lenBytes then
      match rustParseI64 lenBytes with
      | some len =>
        if len = -1 then .ok .null headerConsumed
        else
          let lenU := usizeOfInt len
          let totalLen := (headerConsumed + lenU + 2) % W64
          if buffer.length < totalLen then .err .incomplete
          else
            match rustSlice buffer ((headerConsumed + lenU) % W64) totalLen with
            | some tailBytes =>
              if tailBytes ≠ [13, 10] then
                .err (.invalidFormat "Missing CRLF after bulk string data")
              else
                match rustSlice buffer headerConsumed ((headerConsumed + lenU) % W64) with
                | some data => .ok (.bulkString data) totalLen
                | none => .panicked
            | none => .panicked
      | none => .err (.invalidFormat "invalid integer")
    else .err (.invalidFormat "invalid utf-8")
  | .err e => .err e
  | .panicked => .panicked

/-- The element loop of `RespValue::parse_array`: parse `k` elements from the
buffer, each from the suffix left by its predecessors, accumulating consumed
counts.  The element decoder is a parameter so that the loop is structurally
recursive on `k`. -/
def parseElemsWith (p : List Nat → PResult RespValue) :
    Nat → List Nat → PResult (List RespValue)
  | 0, _ => .ok [] 0
  | k + 1, buffer =>
    match p buffer with
    | .ok v c =>
      match parseElemsWith p k (buffer.drop c) with
      | .ok vs c2 => .ok (v :: vs) (c + c2)
      | .err e => .err e
      | .panicked => .panicked
    | .err e => .err e
    | .panicked => .panicked

/-- Rust `RespValue::parse_array` given a decoder for the elements.
`Vec::with_capacity` panics with "capacity overflow" when the requested
capacity exceeds `isize::MAX`, which is how every negative declared length
other than `-1` is reached after the `as usize` cast; byte-level allocator
limits for astronomically large positive capacities are abstracted away. -/
def parseArrayWith (p : List Nat → PResult RespValue) (buffer : List Nat) :
    PResult RespValue :=
  match parseLine buffer with
  | .ok lenBytes consumed =>
    if isValidUTF8 lenBytes then
      match rustParseI64 lenBytes with
      | some len =>
        if len = -1 then .ok .null consumed
        else
          let lenU := usizeOfInt len
          if 2 ^ 63 ≤ lenU then .panicked
          else
            match parseElemsWith p lenU (buffer.drop consumed) with
            | .ok elems consumed2 => .ok (.array elems) (consumed + consumed2)
            | .err e => .err e
            | .panicked => .panicked
      | none => .err (.invalidFormat "invalid integer")
    else .err (.invalidFormat "invalid utf-8")
  | .err e => .err e
  | .panicked => .panicked

/-- Rust `RespValue::parse`, as a fuelled function: the fuel bounds the nesting
depth of arrays.  Every nesting level consumes at least the two header-CRLF
bytes before recursing, so the recursion depth on a buffer of length `n` is
at most `n / 2`, and any fuel above the buffer length yields the same result
(`parseF_fuel_irrel` below); the fuel-exhaustion sentinel `panicked` is
therefore unreachable from `RespValue.parse`. -/
def parseF : Nat → List Nat → PResult RespValue
  | 0, _ => .panicked
  | fuel + 1, buffer =>
    match buffer with
    | [] => .err .incomplete
    | b :: _ =>
      if b = 58 then parseInteger buffer
      else if b = 43 then parseSimpleString buffer
      else if b = 36 then parseBulkString buffer
      else if b = 42 then parseArrayWith (parseF fuel) buffer
      else .err (.invalidFormat "Unknown prefix")

/-- Rust `RespValue::parse` (the decoder entry point). -/
def RespValue.parse (buffer : List Nat) : PResult RespValue :=
  parseF (buffer.length + 1) buffer

/-- Returns `true` exactly on `Malformed` decode results. -/
def isMalformedB : PResult RespValue → Bool
  | .err (.invalidFormat _) => true
  | _ => false

/-! ## The wire grammar (specification side)

`Enc` is the set of valid encodings of §6 of the specification, one relation
covering single values (`Sum.inl`) and element sequences of an array
(`Sum.inr`) so that plain structural induction applies.  Numeric fields use
the canonical decimal rendering.  Declared lengths are bounded by
`isize::MAX` (`2^63 - 1`), the largest length header the decoder's
`parse::<isize>` can accept. -/

/-- Decimal digits of `n` (most significant first) as bytes; the fuel is
structural and `n + 1` always suffices. -/
def natDigitsAux : Nat → Nat → List Nat
  | 0, _ => []
  | fuel + 1, n =>
    if n < 10 then [48 + n] else natDigitsAux fuel (n / 10) ++ [48 + n % 10]

/-- Canonical decimal rendering of a natural number as bytes. -/
def natToBytes (n : Nat) : List Nat := natDigitsAux (n + 1) n

/-- Canonical decimal rendering of an integer as bytes (`-` for negatives). -/
def intToBytes (i : Int) : List Nat :=
  if i < 0 then 45 :: natToBytes i.natAbs else natToBytes i.toNat

/-- Valid wire encodings: `Enc (Sum.inl v) e` says `e` is a valid encoding of
the value `v`; `Enc (Sum.inr vs) es` says `es` is the concatenation of valid
encodings of the elements `vs` (the body of an array). -/
inductive Enc : RespValue ⊕ List RespValue → List Nat → Prop where
  | simple (s : List Nat) (h : ∀ b ∈ s, b < 128 ∧ b ≠ 13 ∧ b ≠ 10) :
      Enc (.inl (.simpleString s)) (43 :: s ++ [13, 10])
  | int (i : Int) (hlo : -(2 ^ 63) ≤ i) (hhi : i ≤ 2 ^ 63 - 1) :
      Enc (.inl (.integer i)) (58 :: intToBytes i ++ [13, 10])
  | bulk (s : List Nat) (hlen : s.length < 2 ^ 63) :
      Enc (.inl (.bulkString s)) (36 :: natToBytes s.length ++ 13 :: 10 :: (s ++ [13, 10]))
  | nullBulk : Enc (.inl .null) [36, 45, 49, 13, 10]
  | nullArray : Enc (.inl .null) [42, 45, 49, 13, 10]
  | arr (vs : List RespValue) (es : List Nat) (h : Enc (.inr vs) es)
      (hlen : vs.length < 2 ^ 63) :
      Enc (.inl (.array vs)) (42 :: natToBytes vs.length ++ 13 :: 10 :: es)
  | nil : Enc (.inr []) []
  | cons (v : RespValue) (e : List Nat) (vs : List RespValue) (es : List Nat)
      (h1 : Enc (.inl v) e) (h2 : Enc (.inr vs) es) :
      Enc (.inr (v :: vs)) (e ++ es)

/-- Predicate: `e` is a valid wire encoding of the value `v`. -/
def Encodes (v : RespValue) (e : List Nat) : Prop := Enc (Sum.inl v) e

/-- Predicate: `p` is a prefix of `l` (spelled out to keep the development
self-contained). -/
def IsPre (p l : List Nat) : Prop := ∃ t, p ++ t = l

/-! ## UTF-8 lossy decoding and key normalisation (`commands.rs`) -/

/-- The UTF-8 bytes of U+FFFD REPLACEMENT CHARACTER. -/
def fffd : List Nat := [239, 191, 189]

/-- Rust `String::from_utf8_lossy` at the byte level: Rust's "maximal subpart"
substitution — each rejected prefix unit is replaced by one U+FFFD and
decoding resumes at the first byte not part of that unit; a well-formed but
truncated sequence at the end of input becomes a single U+FFFD. -/
def utf8Lossy : List Nat → List Nat
  | [] => []
  | b :: rest =>
    if b < 128 then b :: utf8Lossy rest
    else if 194 ≤ b && b ≤ 223 then
      match rest with
      | [] => fffd
      | c :: r2 => if contB c then b :: c :: utf8Lossy r2 else fffd ++ utf8Lossy (c :: r2)
    else if 224 ≤ b && b ≤ 239 then
      match rest with
      | [] => fffd
      | c :: r2 =>
        if sndOK b c then
          match r2 with
          | [] => fffd
          | d :: r3 =>
            if contB d then b :: c :: d :: utf8Lossy r3 else fffd ++ utf8Lossy (d :: r3)
        else fffd ++ utf8Lossy (c :: r2)
    else if 240 ≤ b && b ≤ 244 then
      match rest with
      | [] => fffd
      | c :: r2 =>
        if sndOK b c then
          match r2 with
          | [] => fffd
          | d :: r3 =>
            if contB d then
              match r3 with
              | [] => fffd
              | e2 :: r4 =>
                if contB e2 then b :: c :: d :: e2 :: utf8Lossy r4
                else fffd ++ utf8Lossy (e2 :: r4)
            else fffd ++ utf8Lossy (d :: r3)
        else fffd ++ utf8Lossy (c :: r2)
    else fffd ++ utf8Lossy rest

/-- Rust `u8::to_ascii_uppercase`. -/
def asciiUpperByte (b : Nat) : Nat := if 97 ≤ b ∧ b ≤ 122 then b - 32 else b

/-- Rust `to_ascii_uppercase` on a byte string.  On a Rust `String` the method
uppercases the ASCII characters and leaves the rest alone, which at the
UTF-8 byte level is exactly this byte map (multi-byte code units are
`≥ 128`). -/
def asciiUpper (l : List Nat) : List Nat := l.map asciiUpperByte

/-- Rust `String::from_utf8_lossy(&key).to_ascii_uppercase()`, the key
normalisation used by both `Get::execute` and `Set::execute`. -/
def normalizeKey (k : List Nat) : List Nat := asciiUpper (utf8Lossy k)

/-- Predicate: `a` and `b` are the same byte up to ASCII letter case. -/
def byteCV (a b : Nat) : Bool :=
  a = b || (65 ≤ a && a ≤ 90 && b = a + 32) || (97 ≤ a && a ≤ 122 && b = a - 32)

/-- Predicate: `k'` is an ASCII case variant of `k`: same bytes except that ASCII
letters may differ in case. -/
def CaseVariant (k k' : List Nat) : Prop :=
  List.Forall₂ (fun a b => byteCV a b = true) k k'

/-! ## Store (`db.rs`) -/

/-- Model of `DbValue` from `db.rs`; `expires_at: Option<Instant>` with `Instant`
modelled as a `Nat` time-stamp. -/
structure DbValue where
  value : List Nat
  expires_at : Option Nat
deriving DecidableEq

/-- The shared map `HashMap<String, DbValue>` (keys are the UTF-8 bytes of
the Rust `String`).  Each command executes while holding the store's mutex,
so a command's execution is one atomic function on this state. -/
def Db : Type := List Nat → Option DbValue

/-- An empty store. -/
def emptyDb : Db := fun _ => none

/-- Rust `HashMap::insert`. -/
def dbInsert (k : List Nat) (v : DbValue) (db : Db) : Db :=
  fun k' => if k' = k then some v else db k'

/-- Rust `HashMap::remove`. -/
def dbRemove (k : List Nat) (db : Db) : Db :=
  fun k' => if k' = k then none else db k'

/-! ## Command interpreter (`commands.rs`) -/

/-- The closed set of parsed commands (variants of the boxed
`CommandExt` trait objects, with their validated fields). -/
inductive Command where
  | ping (msg : Option (List Nat))
  | echo (msg : List Nat)
  | get (key : List Nat)
  | set (key value : List Nat) (px : Option Nat)
deriving DecidableEq

/-- Model of `CommandError` from `commands.rs`.  `UnknownCommand(String)` carries the
UTF-8 bytes of the (lossy-decoded, uppercased) verb. -/
inductive CommandError where
  | notAnArray
  | emptyCommand
  | commandNotBulkString
  | unknownCommand (name : List Nat)
  | wrongArgCount
  | invalidArgument (reason : String)
deriving DecidableEq

/-- Rust `ArgParser::next_bulk_string`: the next argument, which must exist and be
a bulk string; returns it with the remaining arguments. -/
def nextBulkString : List RespValue → Except CommandError (List Nat × List RespValue)
  | .bulkString bs :: rest => .ok (bs, rest)
  | _ :: _ => .error (.invalidArgument "argument must be a bulk string")
  | [] => .error .wrongArgCount

/-- Rust `ArgParser::finish`: fails unless all arguments were consumed. -/
def finishArgs : List RespValue → Except CommandError Unit
  | [] => .ok ()
  | _ :: _ => .error .wrongArgCount

/-- Rust `Ping::parse`. -/
def pingParse (args : List RespValue) : Except CommandError Command :=
  match args with
  | [] => .ok (.ping none)
  | .bulkString bs :: rest =>
    match finishArgs rest with
    | .ok _ => .ok (.ping (some bs))
    | .error e => .error e
  | _ :: _ => .error (.invalidArgument "PING argument must be a bulk string")

/-- Rust `Echo::parse`. -/
def echoParse (args : List RespValue) : Except CommandError Command :=
  match nextBulkString args with
  | .ok (msg, rest) =>
    match finishArgs rest with
    | .ok _ => .ok (.echo msg)
    | .error e => .error e
  | .error e => .error e

/-- Rust `Get::parse`. -/
def getParse (args : List RespValue) : Except CommandError Command :=
  match nextBulkString args with
  | .ok (key, rest) =>
    match finishArgs rest with
    | .ok _ => .ok (.get key)
    | .error e => .error e
  | .error e => .error e

/-- The UTF-8 bytes of `"PX"`. -/
def pxName : List Nat := [80, 88]

/-- The option loop of `Set::parse` (`while let Some(peeked_arg) = ...`).
The `next_bulk_string` used for the `PX` value is inlined (same cases, same
errors) so that the loop is structurally recursive on the argument list. -/
def setParseOptions (px : Option Nat) : List RespValue → Except CommandError (Option Nat)
  | [] => .ok px
  | .bulkString optionBytes :: rest =>
    if asciiUpper optionBytes = pxName then
      if px.isSome then .error (.invalidArgument "PX option specified multiple times")
      else
        match rest with
        | .bulkString pxValBytes :: rest2 =>
          if isValidUTF8 pxValBytes then
            match rustParseU64 pxValBytes with
            | some n => setParseOptions (some n) rest2
            | none => .error (.invalidArgument "PX value must be a positive integer")
          else .error (.invalidArgument "PX value must be valid UTF-8")
        | _ :: _ => .error (.invalidArgument "argument must be a bulk string")
        | [] => .error .wrongArgCount
    else .error (.invalidArgument "syntax error")
  | _ :: _ => .error (.invalidArgument "syntax error")

/-- Rust `Set::parse`. -/
def setParse (args : List RespValue) : Except CommandError Command :=
  match nextBulkString args with
  | .ok (key, rest) =>
    match nextBulkString rest with
    | .ok (value, rest2) =>
      match setParseOptions none rest2 with
      | .ok px => .ok (.set key value px)
      | .error e => .error e
    | .error e => .error e
  | .error e => .error e

/-- The UTF-8 bytes of `"PING"`. -/
def pingName : List Nat := [80, 73, 78, 71]

/-- The UTF-8 bytes of `"ECHO"`. -/
def echoName : List Nat := [69, 67, 72, 79]

/-- The UTF-8 bytes of `"GET"`. -/
def getName : List Nat := [71, 69, 84]

/-- The UTF-8 bytes of `"SET"`. -/
def setName : List Nat := [83, 69, 84]

/-- Rust `Command::from_resp`. -/
def Command.fromResp (resp : RespValue) : Except CommandError Command :=
  match resp with
  | .array elements =>
    match elements with
    | [] => .error .emptyCommand
    | first :: args =>
      match first with
      | .bulkString commandBytes =>
        let cmdName := asciiUpper (utf8Lossy commandBytes)
        if cmdName = pingName then pingParse args
        else if cmdName = echoName then echoParse args
        else if cmdName = getName then getParse args
        else if cmdName = setName then setParse args
        else .error (.unknownCommand cmdName)
      | _ => .error .commandNotBulkString
  | _ => .error .notAnArray

/-- The reply bytes `"+OK\r\n"`. -/
def okReply : List Nat := [43, 79, 75, 13, 10]

/-- The reply bytes `"+PONG\r\n"`. -/
def pongReply : List Nat := [43, 80, 79, 78, 71, 13, 10]

/-- The reply bytes `"$-1\r\n"`. -/
def nullBulkReply : List Nat := [36, 45, 49, 13, 10]

/-- The bytes of `format!("${}\r\n{}\r\n", declaredLen, payload)` as bytes. -/
def bulkReply (declaredLen : Nat) (payload : List Nat) : List Nat :=
  36 :: natToBytes declaredLen ++ 13 :: 10 :: (payload ++ [13, 10])

/-- A well-formed bulk-string reply carrying exactly `payload`. -/
def bulkEnc (payload : List Nat) : List Nat := bulkReply payload.length payload

/-- Rust `Ping::execute`.  Note the source formats the *lossy* decoding of the
message but declares `msg.len()`, the length of the original bytes. -/
def pingExecute (msg : Option (List Nat)) : List Nat :=
  match msg with
  | some m => bulkReply m.length (utf8Lossy m)
  | none => pongReply

/-- Rust `Echo::execute` (same `format!` call as `Ping::execute`). -/
def echoExecute (msg : List Nat) : List Nat := bulkReply msg.length (utf8Lossy msg)

/-- Rust `Get::execute`: runs under the store lock; returns the response bytes and
the store state after the call (`now` is the observation of
`Instant::now()`). -/
def getExecute (key : List Nat) (db : Db) (now : Nat) : List Nat × Db :=
  let keyString := normalizeKey key
  match db keyString with
  | some dbValue =>
    match dbValue.expires_at with
    | some expiresAt =>
      if now ≥ expiresAt then (nullBulkReply, dbRemove keyString db)
      else (bulkEnc (utf8Lossy dbValue.value), db)
    | none => (bulkEnc (utf8Lossy dbValue.value), db)
  | none => (nullBulkReply, db)

/-- Rust `Set::execute`: `expires_at = now + px` when `px` is given (Instant
arithmetic on `Nat`), then insert/overwrite; always replies `+OK`. -/
def setExecute (key value : List Nat) (px : Option Nat) (db : Db) (now : Nat) :
    List Nat × Db :=
  let keyString := normalizeKey key
  let expiresAt := px.map (fun ms => now + ms)
  (okReply, dbInsert keyString ⟨value, expiresAt⟩ db)

/-- Returns `true` exactly on `RespValue::Array` values. -/
def isArrayB : RespValue → Bool
  | .array _ => true
  | _ => false

/-- Returns `true` exactly on `RespValue::BulkString` values. -/
def isBulkStringB : RespValue → Bool
  | .bulkString _ => true
  | _ => false

/-- Returns `true` exactly on `InvalidArgument` command-parse results. -/
def isInvalidArgB : Except CommandError Command → Bool
  | .error (.invalidArgument _) => true
  | _ => false

/-! ## Groundwork lemmas -/

theorem IsPre.length_le {p l : List Nat} (h : IsPre p l) : p.length ≤ l.length := by
  obtain ⟨t, ht⟩ := h
  subst ht
  simp

theorem IsPre_refl (l : List Nat) : IsPre l l := ⟨[], by simp⟩

theorem IsPre_nil (l : List Nat) : IsPre [] l := ⟨l, rfl⟩

theorem IsPre_eq_take {p l : List Nat} (h : IsPre p l) : p = l.take p.length := by
  obtain ⟨t, ht⟩ := h
  subst ht
  simp [List.take_left]

theorem IsPre_of_take (l : List Nat) (n : Nat) : IsPre (l.take n) l :=
  ⟨l.drop n, List.take_append_drop n l⟩

theorem IsPre.append_case {p A B : List Nat} (h : IsPre p (A ++ B)) :
    IsPre p A ∨ ∃ q, p = A ++ q ∧ IsPre q B := by
  rcases Nat.le_total p.length A.length with hle | hge
  · left
    have hp := IsPre_eq_take h
    rw [List.take_append_of_le_length hle] at hp
    rw [hp]
    exact IsPre_of_take A p.length
  · right
    refine ⟨B.take (p.length - A.length), ?_, IsPre_of_take _ _⟩
    have hp := IsPre_eq_take h
    have : p.length = A.length + (p.length - A.length) := by omega
    rw [this, List.take_append] at hp
    exact hp

theorem IsPre.cons_case {p : List Nat} {a : Nat} {l : List Nat} (h : IsPre p (a :: l)) :
    p = [] ∨ ∃ p', p = a :: p' ∧ IsPre p' l := by
  obtain ⟨t, ht⟩ := h
  cases p with
  | nil => exact Or.inl rfl
  | cons x p' =>
    simp only [List.cons_append, List.cons.injEq] at ht
    exact Or.inr ⟨p', by rw [ht.1], ⟨t, ht.2⟩⟩

theorem IsPre.snoc_case {p l : List Nat} {a : Nat} (h : IsPre p (l ++ [a]))
    (hne : p ≠ l ++ [a]) : IsPre p l := by
  have hlen := h.length_le
  have hp := IsPre_eq_take h
  rcases Nat.lt_or_ge p.length (l.length + 1) with hlt | hge
  · have hle : p.length ≤ l.length := by omega
    rw [List.take_append_of_le_length hle] at hp
    rw [hp]
    exact IsPre_of_take l p.length
  · exfalso
    apply hne
    have hplen : p.length = (l ++ [a]).length := by
      simp only [List.length_append, List.length_singleton] at hlen ⊢
      omega
    rw [hp, hplen, List.take_length]

theorem findCRLF_cons_ne_13 {a : Nat} (ha : a ≠ 13) (l : List Nat) :
    findCRLF (a :: l) = (findCRLF l).map (· + 1) := by
  cases l with
  | nil => simp [findCRLF]
  | cons b r => simp [findCRLF, ha]

theorem findCRLF_append_crlf {pre : List Nat} (hpre : ∀ x ∈ pre, x ≠ 13)
    (tail : List Nat) : findCRLF (pre ++ 13 :: 10 :: tail) = some pre.length := by
  induction pre with
  | nil => simp [findCRLF]
  | cons a pre ih =>
    have ha : a ≠ 13 := hpre a (List.mem_cons_self a pre)
    have ih' := ih (fun x hx => hpre x (List.mem_cons_of_mem a hx))
    rw [List.cons_append, findCRLF_cons_ne_13 ha, ih']
    simp

theorem findCRLF_none_of_pre {pre p : List Nat} (hpre : ∀ x ∈ pre, x ≠ 13)
    (h : IsPre p (pre ++ [13])) : findCRLF p = none := by
  induction pre generalizing p with
  | nil =>
    rcases h.cons_case with h0 | ⟨p', hp', hpre'⟩
    · simp [h0, findCRLF]
    · obtain ⟨t, ht⟩ := hpre'
      have : p' = [] := by
        cases p' with
        | nil => rfl
        | cons x q => simp at ht
      simp [hp', this, findCRLF]
  | cons a pre ih =>
    have ha : a ≠ 13 := hpre a (List.mem_cons_self a pre)
    rcases h.cons_case with h0 | ⟨p', hp', hpre'⟩
    · simp [h0, findCRLF]
    · rw [hp', findCRLF_cons_ne_13 ha]
      rw [ih (fun x hx => hpre x (List.mem_cons_of_mem a hx)) hpre']
      rfl

theorem findCRLF_some_bound {l : List Nat} {pos : Nat} (h : findCRLF l = some pos) :
    pos + 2 ≤ l.length := by
  induction l generalizing pos with
  | nil => simp [findCRLF] at h
  | cons a l ih =>
    cases l with
    | nil => simp [findCRLF] at h
    | cons b r =>
      by_cases hab : a = 13 ∧ b = 10
      · simp [findCRLF, hab] at h
        subst h
        simp
      · rw [findCRLF, if_neg hab] at h
        cases hfb : findCRLF (b :: r) with
        | none => rw [hfb] at h; simp at h
        | some q =>
          rw [hfb] at h
          simp only [Option.map_some', Option.some.injEq] at h
          subst h
          have hb := ih hfb
          simp only [List.length_cons] at hb ⊢
          omega

theorem parseLine_exact {m : Nat} (hm : m ≠ 13) {pre : List Nat}
    (hpre : ∀ x ∈ pre, x ≠ 13) (tail : List Nat) :
    parseLine (m :: (pre ++ 13 :: 10 :: tail)) = .ok pre (pre.length + 3) := by
  have hfind : findCRLF (m :: (pre ++ 13 :: 10 :: tail)) = some (pre.length + 1) := by
    have : m :: (pre ++ 13 :: 10 :: tail) = (m :: pre) ++ 13 :: 10 :: tail := by simp
    rw [this, findCRLF_append_crlf]
    · simp
    · intro x hx
      rcases List.mem_cons.mp hx with h | h
      · rw [h]; exact hm
      · exact hpre x h
  have htake : (m :: (pre ++ 13 :: 10 :: tail)).take (pre.length + 1) = m :: pre := by
    rw [List.take_succ_cons, List.take_append_of_le_length (Nat.le_refl _),
      List.take_length]
  simp only [parseLine, hfind, htake, List.drop_succ_cons, List.drop_zero]

theorem parseLine_incomplete {p : List Nat} (h : findCRLF p = none) :
    parseLine p = .err .incomplete := by
  unfold parseLine
  rw [h]

theorem natDigitsAux_digits :
    ∀ fuel n, ∀ b ∈ natDigitsAux fuel n, 48 ≤ b ∧ b ≤ 57 := by
  intro fuel
  induction fuel with
  | zero => intro n b hb; simp [natDigitsAux] at hb
  | succ fuel ih =>
    intro n b hb
    rw [natDigitsAux] at hb
    by_cases hn : n < 10
    · rw [if_pos hn] at hb
      simp at hb
      omega
    · rw [if_neg hn] at hb
      rcases List.mem_append.mp hb with h | h
      · exact ih _ b h
      · simp at h
        have := Nat.mod_lt n (show 0 < 10 by omega)
        omega

theorem natDigitsAux_ne_nil (fuel n : Nat) : natDigitsAux (fuel + 1) n ≠ [] := by
  rw [natDigitsAux]
  by_cases hn : n < 10
  · rw [if_pos hn]; simp
  · rw [if_neg hn]; simp

theorem natDigitsAux_length_le : ∀ fuel n, (natDigitsAux fuel n).length ≤ fuel := by
  intro fuel
  induction fuel with
  | zero => intro n; simp [natDigitsAux]
  | succ fuel ih =>
    intro n
    rw [natDigitsAux]
    by_cases hn : n < 10
    · rw [if_pos hn]; simp
    · rw [if_neg hn]
      simp only [List.length_append, List.length_singleton]
      have := ih (n / 10)
      omega

theorem digitsValGo_append {l₁ : List Nat} {acc m : Nat}
    (h : digitsValGo acc l₁ = some m) (l₂ : List Nat) :
    digitsValGo acc (l₁ ++ l₂) = digitsValGo m l₂ := by
  induction l₁ generalizing acc with
  | nil =>
    simp [digitsValGo] at h
    subst h
    rfl
  | cons b r ih =>
    rw [digitsValGo] at h
    by_cases hd : isDigitB b = true
    · rw [if_pos hd] at h
      rw [List.cons_append, digitsValGo, if_pos hd]
      exact ih h
    · rw [if_neg hd] at h
      exact absurd h (by simp)

theorem digitsValGo_natDigitsAux :
    ∀ fuel n, n < fuel → ∀ acc,
      digitsValGo acc (natDigitsAux fuel n) =
        some (acc * 10 ^ (natDigitsAux fuel n).length + n) := by
  intro fuel
  induction fuel with
  | zero => intro n hn; omega
  | succ fuel ih =>
    intro n hn acc
    rw [natDigitsAux]
    by_cases h10 : n < 10
    · rw [if_pos h10]
      have hd : isDigitB (48 + n) = true := by
        simp [isDigitB]
        omega
      rw [digitsValGo, if_pos hd, digitsValGo]
      congr 1
      simp only [List.length_singleton, pow_one]
      omega
    · rw [if_neg h10]
      have hdiv : n / 10 < fuel := by omega
      have hmain := ih (n / 10) hdiv acc
      rw [digitsValGo_append hmain]
      have hd : isDigitB (48 + n % 10) = true := by
        simp [isDigitB]
        omega
      rw [digitsValGo, if_pos hd, digitsValGo]
      congr 1
      simp only [List.length_append, List.length_singleton]
      rw [pow_succ, ← Nat.mul_assoc]
      generalize acc * 10 ^ (natDigitsAux fuel (n / 10)).length = t
      omega

theorem digitsVal_natToBytes (n : Nat) : digitsVal (natToBytes n) = some n := by
  have hmain := digitsValGo_natDigitsAux (n + 1) n (Nat.lt_succ_self n) 0
  cases hb : natToBytes n with
  | nil => exact absurd hb (natDigitsAux_ne_nil n n)
  | cons b r =>
    rw [digitsVal]
    unfold natToBytes at hb
    rw [← hb, hmain, hb]
    simp

theorem natToBytes_digits (n : Nat) : ∀ b ∈ natToBytes n, 48 ≤ b ∧ b ≤ 57 :=
  natDigitsAux_digits (n + 1) n

theorem natToBytes_length_le (n : Nat) : (natToBytes n).length ≤ n + 1 :=
  natDigitsAux_length_le (n + 1) n

theorem rustParseI64_digit_head {b : Nat} {rest : List Nat} (hb : 48 ≤ b ∧ b ≤ 57) :
    rustParseI64 (b :: rest) =
      match digitsVal (b :: rest) with
      | some n => if n ≤ 2 ^ 63 - 1 then some (n : Int) else none
      | none => none := by
  rw [rustParseI64, if_neg (by omega), if_neg (by omega)]

theorem rustParseI64_natToBytes {n : Nat} (h : n ≤ 2 ^ 63 - 1) :
    rustParseI64 (natToBytes n) = some (n : Int) := by
  cases hb : natToBytes n with
  | nil => exact absurd hb (natDigitsAux_ne_nil n n)
  | cons b r =>
    have hd : 48 ≤ b ∧ b ≤ 57 :=
      natToBytes_digits n b (by rw [hb]; exact List.mem_cons_self b r)
    rw [rustParseI64_digit_head hd, ← hb, digitsVal_natToBytes]
    dsimp only
    rw [if_pos h]

theorem rustParseI64_intToBytes {i : Int} (hlo : -(2 ^ 63) ≤ i) (hhi : i ≤ 2 ^ 63 - 1) :
    rustParseI64 (intToBytes i) = some i := by
  unfold intToBytes
  by_cases hneg : i < 0
  · rw [if_pos hneg, rustParseI64, if_neg (by omega), if_pos rfl,
      digitsVal_natToBytes]
    have h1 : i.natAbs ≤ 2 ^ 63 := by omega
    have h2 : -((i.natAbs : Nat) : Int) = i := by omega
    dsimp only
    rw [if_pos h1, h2]
  · rw [if_neg hneg]
    have h1 : i.toNat ≤ 2 ^ 63 - 1 := by omega
    rw [rustParseI64_natToBytes h1]
    congr 1
    omega

theorem intToBytes_mem {i : Int} {b : Nat} (hb : b ∈ intToBytes i) :
    b = 45 ∨ (48 ≤ b ∧ b ≤ 57) := by
  unfold intToBytes at hb
  by_cases hneg : i < 0
  · rw [if_pos hneg] at hb
    rcases List.mem_cons.mp hb with h | h
    · exact Or.inl h
    · exact Or.inr (natToBytes_digits _ b h)
  · rw [if_neg hneg] at hb
    exact Or.inr (natToBytes_digits _ b hb)

theorem isValidUTF8_cons (b : Nat) (rest : List Nat) :
    isValidUTF8 (b :: rest) =
      if b < 128 then isValidUTF8 rest
      else if 194 ≤ b && b ≤ 223 then
        match rest with
        | [] => false
        | c :: r2 => contB c && isValidUTF8 r2
      else if 224 ≤ b && b ≤ 239 then
        match rest with
        | [] => false
        | c :: r2 =>
          sndOK b c &&
            (match r2 with
             | [] => false
             | d :: r3 => contB d && isValidUTF8 r3)
      else if 240 ≤ b && b ≤ 244 then
        match rest with
        | [] => false
        | c :: r2 =>
          sndOK b c &&
            (match r2 with
             | [] => false
             | d :: r3 =>
               contB d &&
                 (match r3 with
                  | [] => false
                  | e2 :: r4 => contB e2 && isValidUTF8 r4))
      else false := by
  rw [isValidUTF8.eq_def]

theorem isValidUTF8_ascii : ∀ {l : List Nat}, (∀ b ∈ l, b < 128) → isValidUTF8 l = true := by
  intro l
  induction l with
  | nil => intro _; rfl
  | cons b rest ih =>
    intro h
    have hb : b < 128 := h b (List.mem_cons_self b rest)
    rw [isValidUTF8_cons, if_pos hb]
    exact ih (fun x hx => h x (List.mem_cons_of_mem b hx))

theorem natDigitsAux_length_le_pow :
    ∀ fuel n k, n < 10 ^ k → (natDigitsAux fuel n).length ≤ k + 1 := by
  intro fuel
  induction fuel with
  | zero => intro n k _; simp [natDigitsAux]
  | succ fuel ih =>
    intro n k hk
    rw [natDigitsAux]
    by_cases h10 : n < 10
    · rw [if_pos h10]; simp
    · rw [if_neg h10]
      rcases k with _ | k
      · omega
      · simp only [List.length_append, List.length_singleton]
        have hdiv : n / 10 < 10 ^ k := by
          rw [Nat.div_lt_iff_lt_mul (by omega)]
          calc n < 10 ^ (k + 1) := hk
          _ = 10 ^ k * 10 := by rw [pow_succ]
        have := ih (n / 10) k hdiv
        omega

theorem natToBytes_length_le_20 {n : Nat} (h : n < 2 ^ 63) :
    (natToBytes n).length ≤ 20 := by
  have h19 : n < 10 ^ 19 := by
    have : (2 : Nat) ^ 63 < 10 ^ 19 := by norm_num
    omega
  exact natDigitsAux_length_le_pow (n + 1) n 19 h19

theorem IsPre_length_lt {q B : List Nat} (h : IsPre q B) (hne : q ≠ B) :
    q.length < B.length := by
  have hle := h.length_le
  rcases Nat.lt_or_ge q.length B.length with h' | h'
  · exact h'
  · exfalso
    apply hne
    have htake := IsPre_eq_take h
    have hq : q.length = B.length := by omega
    rw [htake, hq, List.take_length]

theorem usizeOfInt_nat {n : Nat} (h : n < 2 ^ 64) : usizeOfInt (n : Int) = n := by
  have hW : (W64 : Int) = 18446744073709551616 := by norm_num [W64]
  unfold usizeOfInt
  rw [hW]
  omega

theorem rustSlice_mid (A B C : List Nat) :
    rustSlice (A ++ B ++ C) A.length (A.length + B.length) = some B := by
  unfold rustSlice
  rw [if_pos ⟨Nat.le_add_right _ _, by simp⟩]
  have h1 : A.length + B.length = (A ++ B).length := by simp
  rw [h1, List.take_left, List.drop_left]

theorem parseF_succ (fuel : Nat) (b : Nat) (rest : List Nat) :
    parseF (fuel + 1) (b :: rest) =
      if b = 58 then parseInteger (b :: rest)
      else if b = 43 then parseSimpleString (b :: rest)
      else if b = 36 then parseBulkString (b :: rest)
      else if b = 42 then parseArrayWith (parseF fuel) (b :: rest)
      else .err (.invalidFormat "Unknown prefix") := rfl

theorem parseF_pos_nil {fuel : Nat} (h : 0 < fuel) : parseF fuel [] = .err .incomplete := by
  cases fuel with
  | zero => omega
  | succ g => rfl

theorem parseSimpleString_run {s : List Nat} (hs : ∀ b ∈ s, b ≠ 13)
    (hutf : isValidUTF8 s = true) (rest : List Nat) :
    parseSimpleString (43 :: (s ++ 13 :: 10 :: rest)) =
      .ok (.simpleString s) (s.length + 3) := by
  unfold parseSimpleString
  rw [parseLine_exact (by omega) hs rest]
  dsimp only
  rw [hutf, if_pos rfl]

theorem parseInteger_run {i : Int} (hlo : -(2 ^ 63) ≤ i) (hhi : i ≤ 2 ^ 63 - 1)
    (rest : List Nat) :
    parseInteger (58 :: (intToBytes i ++ 13 :: 10 :: rest)) =
      .ok (.integer i) ((intToBytes i).length + 3) := by
  have hs : ∀ b ∈ intToBytes i, b ≠ 13 := by
    intro b hb
    rcases intToBytes_mem hb with h | h <;> omega
  have hutf : isValidUTF8 (intToBytes i) = true := by
    apply isValidUTF8_ascii
    intro b hb
    rcases intToBytes_mem hb with h | h <;> omega
  unfold parseInteger
  rw [parseLine_exact (by omega) hs rest]
  dsimp only
  rw [hutf, rustParseI64_intToBytes hlo hhi, if_pos rfl]

theorem parseLine_incomplete_run (buffer : List Nat) (h : findCRLF buffer = none) :
    parseInteger buffer = .err .incomplete ∧
    parseSimpleString buffer = .err .incomplete ∧
    parseBulkString buffer = .err .incomplete ∧
    ∀ p, parseArrayWith p buffer = .err .incomplete := by
  have hline := parseLine_incomplete h
  refine ⟨?_, ?_, ?_, ?_⟩
  · unfold parseInteger; rw [hline]
  · unfold parseSimpleString; rw [hline]
  · unfold parseBulkString; rw [hline]
  · intro p; unfold parseArrayWith; rw [hline]

theorem parseBulkString_run {s : List Nat} (hlen : s.length < 2 ^ 63) (rest : List Nat) :
    parseBulkString (36 :: (natToBytes s.length ++ 13 :: 10 :: (s ++ 13 :: 10 :: rest))) =
      .ok (.bulkString s) ((natToBytes s.length).length + 3 + s.length + 2) := by
  obtain ⟨d, hd⟩ : ∃ d, natToBytes s.length = d := ⟨_, rfl⟩
  have hdig : ∀ b ∈ d, 48 ≤ b ∧ b ≤ 57 := by rw [← hd]; exact natToBytes_digits s.length
  have hno13 : ∀ b ∈ d, b ≠ 13 := fun b hb => by have := hdig b hb; omega
  have hutf : isValidUTF8 d = true :=
    isValidUTF8_ascii (fun b hb => by have := hdig b hb; omega)
  have hdle : d.length ≤ 20 := by rw [← hd]; exact natToBytes_length_le_20 hlen
  have hval : rustParseI64 d = some ((s.length : Nat) : Int) := by
    rw [← hd]
    exact rustParseI64_natToBytes (by omega)
  have hP : (2 : Nat) ^ 63 = 9223372036854775808 := by norm_num
  have hW : W64 = 18446744073709551616 := by norm_num [W64]
  rw [hP] at hlen
  rw [hd]
  unfold parseBulkString
  rw [parseLine_exact (by omega) hno13 _]
  dsimp only
  rw [hutf, if_pos rfl, hval]
  dsimp only
  rw [if_neg (show ¬ (((s.length : Nat) : Int) = -1) by omega)]
  rw [usizeOfInt_nat (show s.length < 2 ^ 64 by rw [show (2:Nat) ^ 64 = 18446744073709551616 by norm_num]; omega)]
  have htot : (d.length + 3 + s.length + 2) % W64 = d.length + 3 + s.length + 2 := by
    rw [hW]
    apply Nat.mod_eq_of_lt
    omega
  have htot2 : (d.length + 3 + s.length) % W64 = d.length + 3 + s.length := by
    rw [hW]
    apply Nat.mod_eq_of_lt
    omega
  rw [htot, htot2]
  have hlenbuf : (36 :: (d ++ 13 :: 10 :: (s ++ 13 :: 10 :: rest))).length =
      d.length + 3 + s.length + 2 + rest.length := by
    simp
    omega
  rw [if_neg (show ¬ ((36 :: (d ++ 13 :: 10 :: (s ++ 13 :: 10 :: rest))).length <
      d.length + 3 + s.length + 2) by rw [hlenbuf]; omega)]
  have hbuf1 : 36 :: (d ++ 13 :: 10 :: (s ++ 13 :: 10 :: rest)) =
      ((36 :: d ++ [13, 10]) ++ s) ++ [13, 10] ++ rest := by simp
  have hA : ((36 :: d ++ [13, 10]) ++ s).length = d.length + 3 + s.length := by
    simp
    omega
  have hslice1 : rustSlice (36 :: (d ++ 13 :: 10 :: (s ++ 13 :: 10 :: rest)))
      (d.length + 3 + s.length) (d.length + 3 + s.length + 2) = some [13, 10] := by
    rw [hbuf1, ← hA]
    exact rustSlice_mid ((36 :: d ++ [13, 10]) ++ s) [13, 10] rest
  rw [hslice1]
  dsimp only
  rw [if_neg (by simp)]
  have hbuf2 : 36 :: (d ++ 13 :: 10 :: (s ++ 13 :: 10 :: rest)) =
      (36 :: d ++ [13, 10]) ++ s ++ (13 :: 10 :: rest) := by simp
  have hB : (36 :: d ++ [13, 10]).length = d.length + 3 := by
    simp
  have hslice2 : rustSlice (36 :: (d ++ 13 :: 10 :: (s ++ 13 :: 10 :: rest)))
      (d.length + 3) (d.length + 3 + s.length) = some s := by
    rw [hbuf2, ← hB]
    exact rustSlice_mid (36 :: d ++ [13, 10]) s (13 :: 10 :: rest)
  rw [hslice2]

theorem parseBulkString_null (rest : List Nat) :
    parseBulkString (36 :: (45 :: 49 :: 13 :: 10 :: rest)) = .ok .null 5 := rfl

theorem parseArrayWith_null (p : List Nat → PResult RespValue) (rest : List Nat) :
    parseArrayWith p (42 :: (45 :: 49 :: 13 :: 10 :: rest)) = .ok .null 5 := rfl

theorem parseArrayWith_header {k : Nat} (hk : k < 2 ^ 63)
    (p : List Nat → PResult RespValue) (tail : List Nat) :
    parseArrayWith p (42 :: (natToBytes k ++ 13 :: 10 :: tail)) =
      match parseElemsWith p k tail with
      | .ok elems c2 => .ok (.array elems) ((natToBytes k).length + 3 + c2)
      | .err e => .err e
      | .panicked => .panicked := by
  obtain ⟨d, hd⟩ : ∃ d, natToBytes k = d := ⟨_, rfl⟩
  have hdig : ∀ b ∈ d, 48 ≤ b ∧ b ≤ 57 := by rw [← hd]; exact natToBytes_digits k
  have hno13 : ∀ b ∈ d, b ≠ 13 := fun b hb => by have := hdig b hb; omega
  have hutf : isValidUTF8 d = true :=
    isValidUTF8_ascii (fun b hb => by have := hdig b hb; omega)
  have hval : rustParseI64 d = some ((k : Nat) : Int) := by
    rw [← hd]
    exact rustParseI64_natToBytes (by omega)
  rw [hd]
  unfold parseArrayWith
  rw [parseLine_exact (by omega) hno13 _]
  dsimp only
  rw [hutf, if_pos rfl, hval]
  dsimp only
  rw [if_neg (show ¬ (((k : Nat) : Int) = -1) by omega)]
  rw [usizeOfInt_nat (show k < 2 ^ 64 by
    have h1 : (2 : Nat) ^ 63 = 9223372036854775808 := by norm_num
    have h2 : (2 : Nat) ^ 64 = 18446744073709551616 := by norm_num
    omega)]
  rw [if_neg (by omega)]
  have hdrop : (42 :: (d ++ 13 :: 10 :: tail)).drop (d.length + 3) = tail := by
    rw [show 42 :: (d ++ 13 :: 10 :: tail) = (42 :: d ++ [13, 10]) ++ tail by simp,
      show d.length + 3 = (42 :: d ++ [13, 10]).length by simp]
    exact List.drop_left _ _
  rw [hdrop]

theorem enc_parse {x : RespValue ⊕ List RespValue} {e : List Nat} (h : Enc x e) :
    ∀ fuel rest, e.length + rest.length < fuel →
      match x with
      | .inl v => parseF fuel (e ++ rest) = .ok v e.length
      | .inr vs => parseElemsWith (parseF fuel) vs.length (e ++ rest) = .ok vs e.length := by
  induction h with
  | simple s hs =>
    intro fuel rest hlt
    dsimp only
    obtain ⟨g, rfl⟩ : ∃ g, fuel = g + 1 := ⟨fuel - 1, by omega⟩
    rw [show (43 :: s ++ [13, 10]) ++ rest = 43 :: (s ++ 13 :: 10 :: rest) by simp,
      parseF_succ, if_neg (by omega), if_pos rfl,
      parseSimpleString_run (fun b hb => ((hs b hb).2).1)
        (isValidUTF8_ascii (fun b hb => (hs b hb).1)) rest]
    congr 1
    simp
  | int i hlo hhi =>
    intro fuel rest hlt
    dsimp only
    obtain ⟨g, rfl⟩ : ∃ g, fuel = g + 1 := ⟨fuel - 1, by omega⟩
    rw [show (58 :: intToBytes i ++ [13, 10]) ++ rest = 58 :: (intToBytes i ++ 13 :: 10 :: rest) by simp,
      parseF_succ, if_pos rfl, parseInteger_run hlo hhi rest]
    congr 1
    simp
  | bulk s hlen =>
    intro fuel rest hlt
    dsimp only
    obtain ⟨g, rfl⟩ : ∃ g, fuel = g + 1 := ⟨fuel - 1, by omega⟩
    rw [show (36 :: natToBytes s.length ++ 13 :: 10 :: (s ++ [13, 10])) ++ rest =
        36 :: (natToBytes s.length ++ 13 :: 10 :: (s ++ 13 :: 10 :: rest)) by simp,
      parseF_succ, if_neg (by omega), if_neg (by omega), if_pos rfl,
      parseBulkString_run hlen rest]
    congr 1
    simp
    omega
  | nullBulk =>
    intro fuel rest hlt
    dsimp only
    obtain ⟨g, rfl⟩ : ∃ g, fuel = g + 1 := ⟨fuel - 1, by omega⟩
    rw [show ([36, 45, 49, 13, 10] : List Nat) ++ rest = 36 :: (45 :: 49 :: 13 :: 10 :: rest) by simp,
      parseF_succ, if_neg (by omega), if_neg (by omega), if_pos rfl,
      parseBulkString_null rest]
    rfl
  | nullArray =>
    intro fuel rest hlt
    dsimp only
    obtain ⟨g, rfl⟩ : ∃ g, fuel = g + 1 := ⟨fuel - 1, by omega⟩
    rw [show ([42, 45, 49, 13, 10] : List Nat) ++ rest = 42 :: (45 :: 49 :: 13 :: 10 :: rest) by simp,
      parseF_succ, if_neg (by omega), if_neg (by omega), if_neg (by omega), if_pos rfl,
      parseArrayWith_null (parseF g) rest]
    rfl
  | arr vs es h hlen ih =>
    intro fuel rest hlt
    dsimp only
    obtain ⟨g, rfl⟩ : ∃ g, fuel = g + 1 := ⟨fuel - 1, by omega⟩
    rw [show (42 :: natToBytes vs.length ++ 13 :: 10 :: es) ++ rest =
        42 :: (natToBytes vs.length ++ 13 :: 10 :: (es ++ rest)) by simp,
      parseF_succ, if_neg (by omega), if_neg (by omega), if_neg (by omega), if_pos rfl,
      parseArrayWith_header hlen (parseF g) (es ++ rest)]
    have hel : (42 :: natToBytes vs.length ++ 13 :: 10 :: es).length =
        (natToBytes vs.length).length + 3 + es.length := by
      simp
      omega
    have hbound : es.length + rest.length < g := by
      rw [hel] at hlt
      omega
    have := ih g rest hbound
    dsimp only at this
    rw [this, hel]
  | nil =>
    intro fuel rest hlt
    dsimp only
    simp [parseElemsWith]
  | cons v e vs es h1 h2 ih1 ih2 =>
    intro fuel rest hlt
    dsimp only
    simp only [List.length_cons, List.length_append] at hlt ⊢
    rw [List.append_assoc, parseElemsWith]
    have hb1 : e.length + (es ++ rest).length < fuel := by
      simp only [List.length_append]
      omega
    have h1run := ih1 fuel (es ++ rest) hb1
    dsimp only at h1run
    rw [h1run]
    dsimp only
    rw [List.drop_left]
    have hb2 : es.length + rest.length < fuel := by omega
    have h2run := ih2 fuel rest hb2
    dsimp only at h2run
    rw [h2run]

theorem findCRLF_marker_pre {m : Nat} (hm : m ≠ 13) {pre p' : List Nat}
    (hpre : ∀ x ∈ pre, x ≠ 13) (hp : IsPre p' (pre ++ [13])) :
    findCRLF (m :: p') = none := by
  refine @findCRLF_none_of_pre (m :: pre) (m :: p') ?_ ?_
  · intro x hx
    rcases List.mem_cons.mp hx with h | h
    · rw [h]; exact hm
    · exact hpre x h
  · obtain ⟨t, ht⟩ := hp
    exact ⟨t, by simp [← ht]⟩

theorem parseF_marker_incomplete {g m : Nat} {p' : List Nat}
    (hm : m = 58 ∨ m = 43 ∨ m = 36 ∨ m = 42)
    (hfind : findCRLF (m :: p') = none) :
    parseF (g + 1) (m :: p') = .err .incomplete := by
  obtain ⟨h1, h2, h3, h4⟩ := parseLine_incomplete_run (m :: p') hfind
  rcases hm with rfl | rfl | rfl | rfl
  · rw [parseF_succ, if_pos rfl]; exact h1
  · rw [parseF_succ, if_neg (by omega), if_pos rfl]; exact h2
  · rw [parseF_succ, if_neg (by omega), if_neg (by omega), if_pos rfl]; exact h3
  · rw [parseF_succ, if_neg (by omega), if_neg (by omega), if_neg (by omega), if_pos rfl]
    exact h4 _

theorem parseF_header_pre {g m : Nat} (hm : m = 58 ∨ m = 43 ∨ m = 36 ∨ m = 42)
    {pre p' : List Nat} (hpre : ∀ x ∈ pre, x ≠ 13)
    (hp : IsPre p' (pre ++ [13])) :
    parseF (g + 1) (m :: p') = .err .incomplete :=
  parseF_marker_incomplete hm (findCRLF_marker_pre (by omega) hpre hp)

theorem parseBulkString_partial {s q : List Nat} (hlen : s.length < 2 ^ 63)
    (hq : q.length < s.length + 2) :
    parseBulkString (36 :: (natToBytes s.length ++ 13 :: 10 :: q)) = .err .incomplete := by
  obtain ⟨d, hd⟩ : ∃ d, natToBytes s.length = d := ⟨_, rfl⟩
  have hdig : ∀ b ∈ d, 48 ≤ b ∧ b ≤ 57 := by rw [← hd]; exact natToBytes_digits s.length
  have hno13 : ∀ b ∈ d, b ≠ 13 := fun b hb => by have := hdig b hb; omega
  have hutf : isValidUTF8 d = true :=
    isValidUTF8_ascii (fun b hb => by have := hdig b hb; omega)
  have hdle : d.length ≤ 20 := by rw [← hd]; exact natToBytes_length_le_20 hlen
  have hval : rustParseI64 d = some ((s.length : Nat) : Int) := by
    rw [← hd]
    exact rustParseI64_natToBytes (by omega)
  have hP : (2 : Nat) ^ 63 = 9223372036854775808 := by norm_num
  have hW : W64 = 18446744073709551616 := by norm_num [W64]
  rw [hP] at hlen
  rw [hd]
  unfold parseBulkString
  rw [parseLine_exact (by omega) hno13 _]
  dsimp only
  rw [hutf, if_pos rfl, hval]
  dsimp only
  rw [if_neg (show ¬ (((s.length : Nat) : Int) = -1) by omega)]
  rw [usizeOfInt_nat (show s.length < 2 ^ 64 by
    rw [show (2 : Nat) ^ 64 = 18446744073709551616 by norm_num]; omega)]
  have htot : (d.length + 3 + s.length + 2) % W64 = d.length + 3 + s.length + 2 := by
    rw [hW]
    apply Nat.mod_eq_of_lt
    omega
  rw [htot]
  rw [if_pos (by simp; omega)]

theorem parseArrayWith_partial {k : Nat} (hk : k < 2 ^ 63)
    (p : List Nat → PResult RespValue) {q : List Nat}
    (hrun : parseElemsWith p k q = .err .incomplete) :
    parseArrayWith p (42 :: (natToBytes k ++ 13 :: 10 :: q)) = .err .incomplete := by
  rw [parseArrayWith_header hk p q, hrun]

theorem enc_prefix_incomplete {x : RespValue ⊕ List RespValue} {e : List Nat}
    (h : Enc x e) :
    ∀ fuel p, IsPre p e → p ≠ e → p.length < fuel →
      match x with
      | .inl _ => parseF fuel p = .err .incomplete
      | .inr vs => parseElemsWith (parseF fuel) vs.length p = .err .incomplete := by
  induction h with
  | simple s hs =>
    intro fuel p hp hne hlt
    dsimp only
    obtain ⟨g, rfl⟩ : ∃ g, fuel = g + 1 := ⟨fuel - 1, by omega⟩
    have he : 43 :: s ++ [13, 10] = 43 :: (s ++ [13, 10]) := by simp
    rw [he] at hp hne
    rcases hp.cons_case with h0 | ⟨p', hp', hpre'⟩
    · rw [h0]; exact parseF_pos_nil (by omega)
    · have hne' : p' ≠ s ++ [13, 10] := fun hq => hne (by rw [hp', hq])
      have hpre13 : IsPre p' (s ++ [13]) := by
        have hsp : s ++ [13, 10] = (s ++ [13]) ++ [10] := by simp
        rw [hsp] at hpre'
        exact hpre'.snoc_case (fun hq => hne' (by rw [hq]; simp))
      rw [hp']
      exact parseF_header_pre (Or.inr (Or.inl rfl))
        (fun b hb => ((hs b hb).2).1) hpre13
  | int i hlo hhi =>
    intro fuel p hp hne hlt
    dsimp only
    obtain ⟨g, rfl⟩ : ∃ g, fuel = g + 1 := ⟨fuel - 1, by omega⟩
    have he : 58 :: intToBytes i ++ [13, 10] = 58 :: (intToBytes i ++ [13, 10]) := by simp
    rw [he] at hp hne
    rcases hp.cons_case with h0 | ⟨p', hp', hpre'⟩
    · rw [h0]; exact parseF_pos_nil (by omega)
    · have hne' : p' ≠ intToBytes i ++ [13, 10] := fun hq => hne (by rw [hp', hq])
      have hpre13 : IsPre p' (intToBytes i ++ [13]) := by
        have hsp : intToBytes i ++ [13, 10] = (intToBytes i ++ [13]) ++ [10] := by simp
        rw [hsp] at hpre'
        exact hpre'.snoc_case (fun hq => hne' (by rw [hq]; simp))
      rw [hp']
      refine parseF_header_pre (Or.inl rfl) ?_ hpre13
      intro b hb
      rcases intToBytes_mem hb with h | h <;> omega
  | nullBulk =>
    intro fuel p hp hne hlt
    dsimp only
    obtain ⟨g, rfl⟩ : ∃ g, fuel = g + 1 := ⟨fuel - 1, by omega⟩
    have he : ([36, 45, 49, 13, 10] : List Nat) = 36 :: ([45, 49] ++ [13, 10]) := by simp
    rw [he] at hp hne
    rcases hp.cons_case with h0 | ⟨p', hp', hpre'⟩
    · rw [h0]; exact parseF_pos_nil (by omega)
    · have hne' : p' ≠ [45, 49] ++ [13, 10] := fun hq => hne (by rw [hp', hq])
      have hpre13 : IsPre p' ([45, 49] ++ [13]) := by
        have hsp : ([45, 49] : List Nat) ++ [13, 10] = ([45, 49] ++ [13]) ++ [10] := by simp
        rw [hsp] at hpre'
        exact hpre'.snoc_case (fun hq => hne' (by rw [hq]; simp))
      rw [hp']
      exact parseF_header_pre (Or.inr (Or.inr (Or.inl rfl)))
        (by intro b hb; simp at hb; omega) hpre13
  | nullArray =>
    intro fuel p hp hne hlt
    dsimp only
    obtain ⟨g, rfl⟩ : ∃ g, fuel = g + 1 := ⟨fuel - 1, by omega⟩
    have he : ([42, 45, 49, 13, 10] : List Nat) = 42 :: ([45, 49] ++ [13, 10]) := by simp
    rw [he] at hp hne
    rcases hp.cons_case with h0 | ⟨p', hp', hpre'⟩
    · rw [h0]; exact parseF_pos_nil (by omega)
    · have hne' : p' ≠ [45, 49] ++ [13, 10] := fun hq => hne (by rw [hp', hq])
      have hpre13 : IsPre p' ([45, 49] ++ [13]) := by
        have hsp : ([45, 49] : List Nat) ++ [13, 10] = ([45, 49] ++ [13]) ++ [10] := by simp
        rw [hsp] at hpre'
        exact hpre'.snoc_case (fun hq => hne' (by rw [hq]; simp))
      rw [hp']
      exact parseF_header_pre (Or.inr (Or.inr (Or.inr rfl)))
        (by intro b hb; simp at hb; omega) hpre13
  | bulk s hlen =>
    intro fuel p hp hne hlt
    dsimp only
    obtain ⟨g, rfl⟩ : ∃ g, fuel = g + 1 := ⟨fuel - 1, by omega⟩
    have he : 36 :: natToBytes s.length ++ 13 :: 10 :: (s ++ [13, 10]) =
        36 :: ((natToBytes s.length ++ [13, 10]) ++ (s ++ [13, 10])) := by simp
    rw [he] at hp hne
    have hdig := natToBytes_digits s.length
    have hmain : ∀ q, IsPre q (s ++ [13, 10]) → q ≠ s ++ [13, 10] →
        parseF (g + 1) (36 :: ((natToBytes s.length ++ [13, 10]) ++ q)) = .err .incomplete := by
      intro q hq hqne
      have hql : q.length < (s ++ [13, 10]).length := IsPre_length_lt hq hqne
      simp only [List.length_append] at hql
      have hform : (natToBytes s.length ++ [13, 10]) ++ q =
          natToBytes s.length ++ 13 :: 10 :: q := by simp
      rw [hform, parseF_succ, if_neg (by omega), if_neg (by omega), if_pos rfl]
      exact parseBulkString_partial hlen (by simpa using hql)
    rcases hp.cons_case with h0 | ⟨p', hp', hpre'⟩
    · rw [h0]; exact parseF_pos_nil (by omega)
    · have hne' : p' ≠ (natToBytes s.length ++ [13, 10]) ++ (s ++ [13, 10]) :=
        fun hq => hne (by rw [hp', hq])
      rcases hpre'.append_case with hA | ⟨q, hq, hqB⟩
      · by_cases hpA : p' = natToBytes s.length ++ [13, 10]
        · rw [hp', hpA, show natToBytes s.length ++ [13, 10] =
            (natToBytes s.length ++ [13, 10]) ++ ([] : List Nat) by simp]
          apply hmain
          · exact IsPre_nil _
          · intro hq
            apply hne'
            rw [hpA, ← hq]
            simp
        · have hpre13 : IsPre p' (natToBytes s.length ++ [13]) := by
            have hsp : natToBytes s.length ++ [13, 10] =
                (natToBytes s.length ++ [13]) ++ [10] := by simp
            rw [hsp] at hA
            exact hA.snoc_case (fun hq => hpA (by rw [hq]; simp))
          rw [hp']
          refine parseF_header_pre (Or.inr (Or.inr (Or.inl rfl))) ?_ hpre13
          intro b hb
          have := hdig b hb
          omega
      · rw [hp', hq]
        apply hmain q hqB
        intro hqe
        apply hne'
        rw [hq, hqe]
  | arr vs es henc hlen ih =>
    intro fuel p hp hne hlt
    dsimp only
    obtain ⟨g, rfl⟩ : ∃ g, fuel = g + 1 := ⟨fuel - 1, by omega⟩
    have he : 42 :: natToBytes vs.length ++ 13 :: 10 :: es =
        42 :: ((natToBytes vs.length ++ [13, 10]) ++ es) := by simp
    rw [he] at hp hne
    have hdig := natToBytes_digits vs.length
    have hmain : ∀ q, IsPre q es → q ≠ es → q.length < g →
        parseF (g + 1) (42 :: ((natToBytes vs.length ++ [13, 10]) ++ q)) = .err .incomplete := by
      intro q hq hqne hqlt
      have hform : (natToBytes vs.length ++ [13, 10]) ++ q =
          natToBytes vs.length ++ 13 :: 10 :: q := by simp
      rw [hform, parseF_succ, if_neg (by omega), if_neg (by omega), if_neg (by omega),
        if_pos rfl]
      have hrun := ih g q hq hqne hqlt
      dsimp only at hrun
      exact parseArrayWith_partial hlen (parseF g) hrun
    rcases hp.cons_case with h0 | ⟨p', hp', hpre'⟩
    · rw [h0]; exact parseF_pos_nil (by omega)
    · have hne' : p' ≠ (natToBytes vs.length ++ [13, 10]) ++ es :=
        fun hq => hne (by rw [hp', hq])
      rcases hpre'.append_case with hA | ⟨q, hq, hqB⟩
      · by_cases hpA : p' = natToBytes vs.length ++ [13, 10]
        · rw [hp', hpA, show natToBytes vs.length ++ [13, 10] =
            (natToBytes vs.length ++ [13, 10]) ++ ([] : List Nat) by simp]
          apply hmain
          · exact IsPre_nil _
          · intro hq
            apply hne'
            rw [hpA, ← hq]
            simp
          · rw [hp'] at hlt
            simp only [List.length_cons, List.length_nil] at hlt ⊢
            omega
        · have hpre13 : IsPre p' (natToBytes vs.length ++ [13]) := by
            have hsp : natToBytes vs.length ++ [13, 10] =
                (natToBytes vs.length ++ [13]) ++ [10] := by simp
            rw [hsp] at hA
            exact hA.snoc_case (fun hq => hpA (by rw [hq]; simp))
          rw [hp']
          refine parseF_header_pre (Or.inr (Or.inr (Or.inr rfl))) ?_ hpre13
          intro b hb
          have := hdig b hb
          omega
      · rw [hp', hq]
        refine hmain q hqB ?_ ?_
        · intro hqe
          apply hne'
          rw [hq, hqe]
        · rw [hp', hq] at hlt
          simp only [List.length_cons, List.length_append] at hlt ⊢
          omega
  | nil =>
    intro fuel p hp hne hlt
    obtain ⟨t, ht⟩ := hp
    have : p = [] := by
      cases p with
      | nil => rfl
      | cons a q => simp at ht
    exact absurd this hne
  | cons v e vs es h1 h2 ih1 ih2 =>
    intro fuel p hp hne hlt
    dsimp only
    simp only [List.length_cons]
    have hmain : ∀ q, IsPre q es → q ≠ es → e.length + q.length < fuel →
        parseElemsWith (parseF fuel) (vs.length + 1) (e ++ q) = .err .incomplete := by
      intro q hq hqne hqb
      rw [parseElemsWith]
      have hA := enc_parse h1 fuel q hqb
      dsimp only at hA
      rw [hA]
      dsimp only
      rw [List.drop_left]
      have hqlt : q.length < fuel := by omega
      have hrun := ih2 fuel q hq hqne hqlt
      dsimp only at hrun
      rw [hrun]
    rcases hp.append_case with hA | ⟨q, hq, hqB⟩
    · by_cases hpe : p = e
      · rw [hpe, show e = e ++ ([] : List Nat) by simp]
        refine hmain [] (IsPre_nil _) ?_ ?_
        · intro hq
          apply hne
          rw [hpe, ← hq]
          simp
        · rw [hpe] at hlt
          simp only [List.length_nil] at hlt ⊢
          omega
      · rw [parseElemsWith]
        have hrun := ih1 fuel p hA hpe hlt
        dsimp only at hrun
        rw [hrun]
    · rw [hq]
      refine hmain q hqB ?_ ?_
      · intro hqe
        apply hne
        rw [hq, hqe]
      · rw [hq] at hlt
        simp only [List.length_append] at hlt ⊢
        omega

theorem parseLine_ok_bound {b l : List Nat} {c : Nat} (h : parseLine b = .ok l c) :
    2 ≤ c ∧ c ≤ b.length := by
  unfold parseLine at h
  cases hf : findCRLF b with
  | some pos =>
    rw [hf] at h
    injection h with h1 h2
    have := findCRLF_some_bound hf
    omega
  | none =>
    rw [hf] at h
    simp at h

theorem parseElemsWith_congr {p q : List Nat → PResult RespValue} {n : Nat}
    (h : ∀ b, b.length ≤ n → p b = q b) :
    ∀ k (b : List Nat), b.length ≤ n → parseElemsWith p k b = parseElemsWith q k b := by
  intro k
  induction k with
  | zero => intro b _; rfl
  | succ k ih =>
    intro b hb
    rw [parseElemsWith, parseElemsWith, ← h b hb]
    cases hr : p b with
    | ok v c =>
      dsimp only
      rw [ih (b.drop c) (by rw [List.length_drop]; omega)]
    | err e => rfl
    | panicked => rfl

theorem parseArrayWith_congr {p q : List Nat → PResult RespValue} {buffer : List Nat}
    (h : ∀ b, b.length + 2 ≤ buffer.length → p b = q b) :
    parseArrayWith p buffer = parseArrayWith q buffer := by
  unfold parseArrayWith
  cases hline : parseLine buffer with
  | err e => rfl
  | panicked => rfl
  | ok lineBytes consumed =>
    obtain ⟨hc2, hcle⟩ := parseLine_ok_bound hline
    have hrec : ∀ k, parseElemsWith p k (buffer.drop consumed) =
        parseElemsWith q k (buffer.drop consumed) := by
      intro k
      apply parseElemsWith_congr (n := buffer.length - 2)
      · intro b hb
        exact h b (by omega)
      · rw [List.length_drop]
        omega
    dsimp only
    simp only [hrec]

/-- The fuel in `parseF` is irrelevant once it exceeds the buffer length:
each array-nesting level strictly shrinks the buffer before recursing, so any
two sufficient fuels compute the same result.  This justifies
`RespValue.parse` instantiating the fuel at `buffer.length + 1`. -/
theorem parseF_fuel_irrel : ∀ f1 {f2 : Nat} {b : List Nat}, b.length < f1 →
    b.length < f2 → parseF f1 b = parseF f2 b := by
  intro f1
  induction f1 with
  | zero => intro f2 b h1 _; omega
  | succ g1 ih =>
    intro f2 b h1 h2
    obtain ⟨g2, rfl⟩ : ∃ g2, f2 = g2 + 1 := ⟨f2 - 1, by omega⟩
    cases b with
    | nil => rfl
    | cons x rest =>
      rw [parseF_succ, parseF_succ]
      by_cases h58 : x = 58
      · rw [if_pos h58, if_pos h58]
      · rw [if_neg h58, if_neg h58]
        by_cases h43 : x = 43
        · rw [if_pos h43, if_pos h43]
        · rw [if_neg h43, if_neg h43]
          by_cases h36 : x = 36
          · rw [if_pos h36, if_pos h36]
          · rw [if_neg h36, if_neg h36]
            by_cases h42 : x = 42
            · rw [if_pos h42, if_pos h42]
              apply parseArrayWith_congr
              intro b' hb'
              simp only [List.length_cons] at h1 h2 hb'
              exact ih (by omega) (by omega)
            · rw [if_neg h42, if_neg h42]

theorem parse_of_encodes {v : RespValue} {e : List Nat} (h : Encodes v e) :
    RespValue.parse e = .ok v e.length := by
  have hm := enc_parse h (e.length + 1) [] (by simp)
  dsimp only at hm
  rw [List.append_nil] at hm
  exact hm

theorem parse_pre_incomplete_of_encodes {v : RespValue} {e p : List Nat}
    (h : Encodes v e) (hp : IsPre p e) (hne : p ≠ e) :
    RespValue.parse p = .err .incomplete := by
  have hm := enc_prefix_incomplete h (p.length + 1) p hp hne (by omega)
  dsimp only at hm
  exact hm

theorem rustParseI64_natToBytes_big {n : Nat} (h : 2 ^ 63 ≤ n) :
    rustParseI64 (natToBytes n) = none := by
  cases hb : natToBytes n with
  | nil => exact absurd hb (natDigitsAux_ne_nil n n)
  | cons b r =>
    have hd : 48 ≤ b ∧ b ≤ 57 :=
      natToBytes_digits n b (by rw [hb]; exact List.mem_cons_self b r)
    rw [rustParseI64_digit_head hd, ← hb, digitsVal_natToBytes]
    dsimp only
    rw [if_neg (by omega)]

theorem parseBulkString_hugelen {n : Nat} (hn : 2 ^ 63 ≤ n) (tail : List Nat) :
    parseBulkString (36 :: (natToBytes n ++ 13 :: 10 :: tail)) =
      .err (.invalidFormat "invalid integer") := by
  obtain ⟨d, hd⟩ : ∃ d, natToBytes n = d := ⟨_, rfl⟩
  have hdig : ∀ b ∈ d, 48 ≤ b ∧ b ≤ 57 := by rw [← hd]; exact natToBytes_digits n
  have hno13 : ∀ b ∈ d, b ≠ 13 := fun b hb => by have := hdig b hb; omega
  have hutf : isValidUTF8 d = true :=
    isValidUTF8_ascii (fun b hb => by have := hdig b hb; omega)
  have hval : rustParseI64 d = none := by
    rw [← hd]
    exact rustParseI64_natToBytes_big hn
  rw [hd]
  unfold parseBulkString
  rw [parseLine_exact (by omega) hno13 _]
  dsimp only
  rw [hutf, if_pos rfl, hval]

theorem parseBulkString_badtail {payload rest : List Nat} {x y : Nat}
    (hn : payload.length < 2 ^ 63) (hxy : ¬ (x = 13 ∧ y = 10)) :
    parseBulkString
        (36 :: (natToBytes payload.length ++ 13 :: 10 :: (payload ++ x :: y :: rest))) =
      .err (.invalidFormat "Missing CRLF after bulk string data") := by
  obtain ⟨d, hd⟩ : ∃ d, natToBytes payload.length = d := ⟨_, rfl⟩
  have hdig : ∀ b ∈ d, 48 ≤ b ∧ b ≤ 57 := by
    rw [← hd]; exact natToBytes_digits payload.length
  have hno13 : ∀ b ∈ d, b ≠ 13 := fun b hb => by have := hdig b hb; omega
  have hutf : isValidUTF8 d = true :=
    isValidUTF8_ascii (fun b hb => by have := hdig b hb; omega)
  have hdle : d.length ≤ 20 := by rw [← hd]; exact natToBytes_length_le_20 hn
  have hval : rustParseI64 d = some ((payload.length : Nat) : Int) := by
    rw [← hd]
    exact rustParseI64_natToBytes (by omega)
  have hP : (2 : Nat) ^ 63 = 9223372036854775808 := by norm_num
  have hW : W64 = 18446744073709551616 := by norm_num [W64]
  rw [hP] at hn
  rw [hd]
  unfold parseBulkString
  rw [parseLine_exact (by omega) hno13 _]
  dsimp only
  rw [hutf, if_pos rfl, hval]
  dsimp only
  rw [if_neg (show ¬ (((payload.length : Nat) : Int) = -1) by omega)]
  rw [usizeOfInt_nat (show payload.length < 2 ^ 64 by
    rw [show (2 : Nat) ^ 64 = 18446744073709551616 by norm_num]; omega)]
  have htot : (d.length + 3 + payload.length + 2) % W64 = d.length + 3 + payload.length + 2 := by
    rw [hW]
    apply Nat.mod_eq_of_lt
    omega
  have htot2 : (d.length + 3 + payload.length) % W64 = d.length + 3 + payload.length := by
    rw [hW]
    apply Nat.mod_eq_of_lt
    omega
  rw [htot, htot2]
  rw [if_neg (show ¬ ((36 :: (d ++ 13 :: 10 :: (payload ++ x :: y :: rest))).length <
      d.length + 3 + payload.length + 2) by simp; omega)]
  have hbuf1 : 36 :: (d ++ 13 :: 10 :: (payload ++ x :: y :: rest)) =
      ((36 :: d ++ [13, 10]) ++ payload) ++ [x, y] ++ rest := by simp
  have hA : ((36 :: d ++ [13, 10]) ++ payload).length = d.length + 3 + payload.length := by
    simp
    omega
  have hslice1 : rustSlice (36 :: (d ++ 13 :: 10 :: (payload ++ x :: y :: rest)))
      (d.length + 3 + payload.length) (d.length + 3 + payload.length + 2) = some [x, y] := by
    rw [hbuf1, ← hA]
    exact rustSlice_mid ((36 :: d ++ [13, 10]) ++ payload) [x, y] rest
  rw [hslice1]
  dsimp only
  rw [if_pos (by simp; omega)]

/-! ## Claim theorems: wire decoder -/

/-- C2: for every structured value and every valid wire encoding of it per
the protocol grammar, `decode` returns exactly that value together with a
consumed count equal to the encoding's byte length. -/
theorem decode_encode_roundtrip {v : RespValue} {e : List Nat} (h : Encodes v e) :
    RespValue.parse e = .ok v e.length :=
  parse_of_encodes h

/-- Witness for C2 at the encoding `*1\r\n$4\r\nPING\r\n` of the one-element
array holding the bulk string `PING`. -/
theorem decode_encode_roundtrip_witness :
    Encodes (.array [.bulkString [80, 73, 78, 71]])
        [42, 49, 13, 10, 36, 52, 13, 10, 80, 73, 78, 71, 13, 10] ∧
      RespValue.parse [42, 49, 13, 10, 36, 52, 13, 10, 80, 73, 78, 71, 13, 10] =
        .ok (.array [.bulkString [80, 73, 78, 71]]) 14 := by
  have henc : Encodes (.array [.bulkString [80, 73, 78, 71]])
      [42, 49, 13, 10, 36, 52, 13, 10, 80, 73, 78, 71, 13, 10] :=
    Enc.arr [.bulkString [80, 73, 78, 71]] _
      (Enc.cons _ _ _ _ (Enc.bulk [80, 73, 78, 71] (by norm_num)) Enc.nil)
      (by norm_num)
  exact ⟨henc, decode_encode_roundtrip henc⟩

/-- C3 evaluated on the code: a bulk-string header with declared length `-2`
(`$-2\r\n`) makes the decoder panic rather than return `Malformed` (the
negative length is cast to a huge `usize`; in release mode the data-slice
bounds are inverted, in debug mode the `total_len` addition already
overflows).  `*-2\r\n` panics in `Vec::with_capacity` (capacity overflow).
A hugely negative length such as `$-9223372036854775808\r\n` instead makes
the decoder return `Incomplete`.  None of these return `Malformed`. -/
theorem negative_length_panics :
    RespValue.parse [36, 45, 50, 13, 10] = .panicked ∧
      RespValue.parse [42, 45, 50, 13, 10] = .panicked ∧
      RespValue.parse [36, 45, 57, 50, 50, 51, 51, 55, 50, 48, 51, 54, 56, 53,
        52, 55, 55, 53, 56, 48, 56, 13, 10] = .err .incomplete :=
  ⟨rfl, rfl, rfl⟩

/-- C6: for every valid wire encoding and every strict prefix of it, decoding
the prefix yields `Incomplete`, and decoding the full buffer yields the same
`(value, consumed)` result as decoding the whole encoding in one call. -/
theorem decode_prefix_incomplete {v : RespValue} {e p : List Nat} (h : Encodes v e)
    (hp : IsPre p e) (hne : p ≠ e) :
    RespValue.parse p = .err .incomplete ∧ RespValue.parse e = .ok v e.length :=
  ⟨parse_pre_incomplete_of_encodes h hp hne, parse_of_encodes h⟩

/-- Witness for C6: the encoding `*1\r\n$4\r\nECHO\r\n` split after 9 bytes. -/
theorem decode_prefix_incomplete_witness :
    Encodes (.array [.bulkString [69, 67, 72, 79]])
        [42, 49, 13, 10, 36, 52, 13, 10, 69, 67, 72, 79, 13, 10] ∧
      IsPre [42, 49, 13, 10, 36, 52, 13, 10, 69]
        [42, 49, 13, 10, 36, 52, 13, 10, 69, 67, 72, 79, 13, 10] ∧
      RespValue.parse [42, 49, 13, 10, 36, 52, 13, 10, 69] = .err .incomplete ∧
      RespValue.parse [42, 49, 13, 10, 36, 52, 13, 10, 69, 67, 72, 79, 13, 10] =
        .ok (.array [.bulkString [69, 67, 72, 79]]) 14 := by
  have henc : Encodes (.array [.bulkString [69, 67, 72, 79]])
      [42, 49, 13, 10, 36, 52, 13, 10, 69, 67, 72, 79, 13, 10] :=
    Enc.arr [.bulkString [69, 67, 72, 79]] _
      (Enc.cons _ _ _ _ (Enc.bulk [69, 67, 72, 79] (by norm_num)) Enc.nil)
      (by norm_num)
  have hpre : IsPre [42, 49, 13, 10, 36, 52, 13, 10, 69]
      [42, 49, 13, 10, 36, 52, 13, 10, 69, 67, 72, 79, 13, 10] :=
    ⟨[67, 72, 79, 13, 10], rfl⟩
  have hmain := decode_prefix_incomplete henc hpre (by decide)
  exact ⟨henc, hpre, hmain.1, hmain.2⟩

/-- C8: a bulk string whose header and declared-length payload are fully
present but whose two bytes immediately after the payload are not CRLF
decodes to `Malformed` (not `Incomplete`), even when the declared length
matches the payload. -/
theorem bulk_missing_crlf_malformed {n : Nat} {payload rest : List Nat} {x y : Nat}
    (hlen : payload.length = n) (hxy : ¬ (x = 13 ∧ y = 10)) :
    isMalformedB (RespValue.parse
      (36 :: (natToBytes n ++ 13 :: 10 :: (payload ++ x :: y :: rest)))) = true := by
  subst hlen
  unfold RespValue.parse
  rw [show (36 :: (natToBytes payload.length ++ 13 :: 10 ::
      (payload ++ x :: y :: rest))).length + 1
      = ((natToBytes payload.length ++ 13 :: 10 ::
        (payload ++ x :: y :: rest)).length + 1) + 1 by simp]
  rw [parseF_succ, if_neg (by omega), if_neg (by omega), if_pos rfl]
  by_cases hn : payload.length < 2 ^ 63
  · rw [parseBulkString_badtail hn hxy]
    rfl
  · rw [parseBulkString_hugelen (by omega) _]
    rfl

/-- Witness for C8: `$1\r\naAB` (payload `a` of declared length 1, followed
by `AB` instead of CRLF) is `Malformed`. -/
theorem bulk_missing_crlf_malformed_witness :
    ([97].length = 1 ∧ ¬ ((65 : Nat) = 13 ∧ (66 : Nat) = 10)) ∧
      isMalformedB (RespValue.parse
        (36 :: (natToBytes 1 ++ 13 :: 10 :: ([97] ++ 65 :: 66 :: [])))) = true :=
  ⟨⟨rfl, by decide⟩,
    @bulk_missing_crlf_malformed 1 [97] [] 65 66 rfl (by decide)⟩

/-! ## Claim theorems: command interpreter and store -/

/-- C4 evaluated on the code (code bug): `Ping`/`Echo` format the *lossy*
UTF-8 decoding of the message while declaring the *original* byte length, so
for the non-UTF-8 message `[0xFF]` the reply is `$1\r\n` followed by the
three replacement-character bytes — not the message re-encoded unchanged,
and not even a well-formed bulk string. -/
theorem ping_echo_lossy_divergence :
    pingExecute (some [255]) = [36, 49, 13, 10, 239, 191, 189, 13, 10] ∧
      echoExecute [255] = [36, 49, 13, 10, 239, 191, 189, 13, 10] ∧
      echoExecute [255] ≠ bulkEnc [255] ∧
      pingExecute (some [255]) ≠ bulkEnc [255] :=
  ⟨rfl, rfl, by decide, by decide⟩

/-- C9: a non-array top-level value fails with `NotAnArray`; an empty array
fails with `EmptyCommand`; a first element that is not a bulk string fails
with `CommandNotBulkString`; a first element naming no supported verb after
uppercase case-folding fails with `UnknownCommand` carrying that folded
name. -/
theorem from_resp_structural_errors :
    (∀ v : RespValue, isArrayB v = false → Command.fromResp v = .error .notAnArray) ∧
      (Command.fromResp (.array []) = .error .emptyCommand) ∧
      (∀ (first : RespValue) (args : List RespValue), isBulkStringB first = false →
        Command.fromResp (.array (first :: args)) = .error .commandNotBulkString) ∧
      (∀ (cb : List Nat) (args : List RespValue),
        asciiUpper (utf8Lossy cb) ≠ pingName →
        asciiUpper (utf8Lossy cb) ≠ echoName →
        asciiUpper (utf8Lossy cb) ≠ getName →
        asciiUpper (utf8Lossy cb) ≠ setName →
        Command.fromResp (.array (.bulkString cb :: args)) =
          .error (.unknownCommand (asciiUpper (utf8Lossy cb)))) := by
  refine ⟨?_, rfl, ?_, ?_⟩
  · intro v hv
    cases v with
    | simpleString s => rfl
    | integer i => rfl
    | bulkString bs => rfl
    | array l => simp [isArrayB] at hv
    | null => rfl
  · intro first args hf
    cases first with
    | simpleString s => rfl
    | integer i => rfl
    | bulkString bs => simp [isBulkStringB] at hf
    | array l => rfl
    | null => rfl
  · intro cb args hp he hg hs
    unfold Command.fromResp
    dsimp only
    rw [if_neg hp, if_neg he, if_neg hg, if_neg hs]

/-- Witness for C9 at the four concrete inputs `5`, `[]`, `[1, "k"]` and
`["FOO"]`. -/
theorem from_resp_structural_errors_witness :
    Command.fromResp (.integer 5) = .error .notAnArray ∧
      Command.fromResp (.array []) = .error .emptyCommand ∧
      Command.fromResp (.array [.integer 1, .bulkString [107]]) =
        .error .commandNotBulkString ∧
      Command.fromResp (.array [.bulkString [70, 79, 79]]) =
        .error (.unknownCommand [70, 79, 79]) :=
  ⟨from_resp_structural_errors.1 _ rfl, from_resp_structural_errors.2.1,
    from_resp_structural_errors.2.2.1 _ _ rfl,
    from_resp_structural_errors.2.2.2 [70, 79, 79] []
      (by decide) (by decide) (by decide) (by decide)⟩

theorem setParseOptions_bulk (px : Option Nat) (optionBytes : List Nat)
    (rest : List RespValue) :
    setParseOptions px (.bulkString optionBytes :: rest) =
      if asciiUpper optionBytes = pxName then
        if px.isSome then .error (.invalidArgument "PX option specified multiple times")
        else
          match rest with
          | .bulkString pxValBytes :: rest2 =>
            if isValidUTF8 pxValBytes then
              match rustParseU64 pxValBytes with
              | some n => setParseOptions (some n) rest2
              | none => .error (.invalidArgument "PX value must be a positive integer")
            else .error (.invalidArgument "PX value must be valid UTF-8")
          | _ :: _ => .error (.invalidArgument "argument must be a bulk string")
          | [] => .error .wrongArgCount
      else .error (.invalidArgument "syntax error") := by
  rw [setParseOptions.eq_def]

/-- C7: `SET` parsing fails with `InvalidArgument` when the `PX` option is
supplied more than once, when the `PX` value is a non-UTF-8 or non-integer
bulk string, and when any option token other than `PX` (case-insensitive)
follows the key and value. -/
theorem set_parse_invalid_options :
    (∀ (k v t1 n1 t2 : List Nat) (rest : List RespValue) (m : Nat),
      asciiUpper t1 = pxName → asciiUpper t2 = pxName →
      isValidUTF8 n1 = true → rustParseU64 n1 = some m →
      setParse (.bulkString k :: .bulkString v :: .bulkString t1 :: .bulkString n1 ::
          .bulkString t2 :: rest) =
        .error (.invalidArgument "PX option specified multiple times")) ∧
      (∀ (k v t pv : List Nat) (rest : List RespValue),
        asciiUpper t = pxName → isValidUTF8 pv = false →
        setParse (.bulkString k :: .bulkString v :: .bulkString t ::
            .bulkString pv :: rest) =
          .error (.invalidArgument "PX value must be valid UTF-8")) ∧
      (∀ (k v t pv : List Nat) (rest : List RespValue),
        asciiUpper t = pxName → isValidUTF8 pv = true → rustParseU64 pv = none →
        setParse (.bulkString k :: .bulkString v :: .bulkString t ::
            .bulkString pv :: rest) =
          .error (.invalidArgument "PX value must be a positive integer")) ∧
      (∀ (k v t : List Nat) (rest : List RespValue),
        asciiUpper t ≠ pxName →
        setParse (.bulkString k :: .bulkString v :: .bulkString t :: rest) =
          .error (.invalidArgument "syntax error")) := by
  refine ⟨?_, ?_, ?_, ?_⟩
  · intro k v t1 n1 t2 rest m h1 h2 h3 h4
    unfold setParse nextBulkString
    dsimp only
    rw [setParseOptions_bulk, if_pos h1, if_neg (by simp)]
    dsimp only
    rw [h3, if_pos rfl, h4]
    dsimp only
    rw [setParseOptions_bulk, if_pos h2,
      if_pos (show (some m).isSome = true from rfl)]
  · intro k v t pv rest h1 h2
    unfold setParse nextBulkString
    dsimp only
    rw [setParseOptions_bulk, if_pos h1, if_neg (by simp)]
    dsimp only
    rw [h2, if_neg (by simp)]
  · intro k v t pv rest h1 h2 h3
    unfold setParse nextBulkString
    dsimp only
    rw [setParseOptions_bulk, if_pos h1, if_neg (by simp)]
    dsimp only
    rw [h2, if_pos rfl, h3]
  · intro k v t rest h1
    unfold setParse nextBulkString
    dsimp only
    rw [setParseOptions_bulk, if_neg h1]

/-- Witness for C7 at concrete inputs: `SET k v PX 1 px 2`,
`SET k v PX <0xFF>`, `SET k v PX a`, and `SET k v XX`. -/
theorem set_parse_invalid_options_witness :
    setParse [.bulkString [107], .bulkString [118], .bulkString [80, 88],
        .bulkString [49], .bulkString [112, 120], .bulkString [50]] =
      .error (.invalidArgument "PX option specified multiple times") ∧
    setParse [.bulkString [107], .bulkString [118], .bulkString [80, 88],
        .bulkString [255]] =
      .error (.invalidArgument "PX value must be valid UTF-8") ∧
    setParse [.bulkString [107], .bulkString [118], .bulkString [112, 120],
        .bulkString [97]] =
      .error (.invalidArgument "PX value must be a positive integer") ∧
    setParse [.bulkString [107], .bulkString [118], .bulkString [88, 88]] =
      .error (.invalidArgument "syntax error") :=
  ⟨set_parse_invalid_options.1 [107] [118] [80, 88] [49] [112, 120] [.bulkString [50]] 1
      rfl rfl rfl rfl,
    set_parse_invalid_options.2.1 [107] [118] [80, 88] [255] [] rfl rfl,
    set_parse_invalid_options.2.2.1 [107] [118] [112, 120] [97] [] rfl rfl rfl,
    set_parse_invalid_options.2.2.2 [107] [118] [88, 88] [] (by decide)⟩

/-- C5: a `GET` whose entry's expiry deadline has passed at observation time
returns the null bulk-string reply `$-1\r\n` and removes the entry from the
store, in the same operation. -/
theorem get_expired_evicts {db : Db} {k : List Nat} {now t : Nat} {dv : DbValue}
    (hdb : db (normalizeKey k) = some dv) (hexp : dv.expires_at = some t)
    (ht : t ≤ now) :
    (getExecute k db now).fst = nullBulkReply ∧
      (getExecute k db now).snd (normalizeKey k) = none := by
  unfold getExecute
  dsimp only
  rw [hdb]
  dsimp only
  rw [hexp]
  dsimp only
  rw [if_pos (by omega)]
  exact ⟨rfl, by simp [dbRemove]⟩

/-- Witness for C5: key `k` (normalising to `K`) with an entry that expired
at time 3, observed at time 5. -/
theorem get_expired_evicts_witness :
    ((dbInsert [75] ⟨[2], some 3⟩ emptyDb) (normalizeKey [107]) = some ⟨[2], some 3⟩ ∧
        (3 : Nat) ≤ 5) ∧
      (getExecute [107] (dbInsert [75] ⟨[2], some 3⟩ emptyDb) 5).fst = nullBulkReply ∧
      (getExecute [107] (dbInsert [75] ⟨[2], some 3⟩ emptyDb) 5).snd
        (normalizeKey [107]) = none := by
  have h := @get_expired_evicts (dbInsert [75] ⟨[2], some 3⟩ emptyDb) [107] 5 3
    ⟨[2], some 3⟩ rfl rfl (by omega)
  exact ⟨⟨rfl, by omega⟩, h.1, h.2⟩

/-- C10: `Get` and `Set` modify at most the entry at the uppercase-normalised
key; every other entry is untouched, and `Get` removes an entry only when
that entry carries an expiry deadline that has passed. -/
theorem execute_frame_effect :
    (∀ (db : Db) (now : Nat) (k v : List Nat) (px : Option Nat) (k' : List Nat),
      k' ≠ normalizeKey k →
      (setExecute k v px db now).snd k' = db k' ∧
        (getExecute k db now).snd k' = db k') ∧
      (∀ (db : Db) (now : Nat) (k k' : List Nat),
        (getExecute k db now).snd k' ≠ db k' →
        k' = normalizeKey k ∧ (getExecute k db now).snd k' = none ∧
          ∃ dv t, db k' = some dv ∧ dv.expires_at = some t ∧ t ≤ now) := by
  constructor
  · intro db now k v px k' hk
    constructor
    · unfold setExecute
      dsimp only
      simp [dbInsert, hk]
    · unfold getExecute
      dsimp only
      cases hdb : db (normalizeKey k) with
      | none => rfl
      | some dv =>
        dsimp only
        cases hexp : dv.expires_at with
        | none => rfl
        | some t =>
          dsimp only
          by_cases hge : now ≥ t
          · rw [if_pos hge]
            simp [dbRemove, hk]
          · rw [if_neg hge]
  · intro db now k k' hne
    unfold getExecute at hne ⊢
    dsimp only at hne ⊢
    cases hdb : db (normalizeKey k) with
    | none =>
      rw [hdb] at hne
      dsimp only at hne
      exact absurd rfl hne
    | some dv =>
      rw [hdb] at hne
      dsimp only at hne ⊢
      cases hexp : dv.expires_at with
      | none =>
        rw [hexp] at hne
        dsimp only at hne
        exact absurd rfl hne
      | some t =>
        rw [hexp] at hne
        dsimp only at hne ⊢
        by_cases hge : now ≥ t
        · rw [if_pos hge] at hne ⊢
          by_cases hkk : k' = normalizeKey k
          · subst hkk
            refine ⟨rfl, by simp [dbRemove], dv, t, hdb, hexp, by omega⟩
          · exfalso
            apply hne
            simp [dbRemove, hkk]
        · rw [if_neg hge] at hne
          exact absurd rfl hne

/-- Witness for C10: a store with one entry at `K` expiring at 3; `SET k`
and `GET k` leave the unrelated key `A` alone, and `GET k` at time 5 evicts
exactly the expired entry at `K`. -/
theorem execute_frame_effect_witness :
    ((setExecute [107] [9] none (dbInsert [75] ⟨[2], some 3⟩ emptyDb) 0).snd [65] =
        (dbInsert [75] ⟨[2], some 3⟩ emptyDb) [65] ∧
      (getExecute [107] (dbInsert [75] ⟨[2], some 3⟩ emptyDb) 0).snd [65] =
        (dbInsert [75] ⟨[2], some 3⟩ emptyDb) [65]) ∧
      ([75] = normalizeKey [107] ∧
        (getExecute [107] (dbInsert [75] ⟨[2], some 3⟩ emptyDb) 5).snd [75] = none ∧
        ∃ dv t, (dbInsert [75] ⟨[2], some 3⟩ emptyDb) [75] = some dv ∧
          dv.expires_at = some t ∧ t ≤ 5) :=
  ⟨execute_frame_effect.1 (dbInsert [75] ⟨[2], some 3⟩ emptyDb) 0 [107] [9] none [65]
      (by decide),
    execute_frame_effect.2 (dbInsert [75] ⟨[2], some 3⟩ emptyDb) 5 [107] [75]
      (by decide)⟩

theorem utf8Lossy_cons (b : Nat) (rest : List Nat) :
    utf8Lossy (b :: rest) =
      if b < 128 then b :: utf8Lossy rest
      else if 194 ≤ b && b ≤ 223 then
        match rest with
        | [] => fffd
        | c :: r2 => if contB c then b :: c :: utf8Lossy r2 else fffd ++ utf8Lossy (c :: r2)
      else if 224 ≤ b && b ≤ 239 then
        match rest with
        | [] => fffd
        | c :: r2 =>
          if sndOK b c then
            match r2 with
            | [] => fffd
            | d :: r3 =>
              if contB d then b :: c :: d :: utf8Lossy r3 else fffd ++ utf8Lossy (d :: r3)
          else fffd ++ utf8Lossy (c :: r2)
      else if 240 ≤ b && b ≤ 244 then
        match rest with
        | [] => fffd
        | c :: r2 =>
          if sndOK b c then
            match r2 with
            | [] => fffd
            | d :: r3 =>
              if contB d then
                match r3 with
                | [] => fffd
                | e2 :: r4 =>
                  if contB e2 then b :: c :: d :: e2 :: utf8Lossy r4
                  else fffd ++ utf8Lossy (e2 :: r4)
              else fffd ++ utf8Lossy (d :: r3)
          else fffd ++ utf8Lossy (c :: r2)
      else fffd ++ utf8Lossy rest := by
  rw [utf8Lossy.eq_def]

theorem byteCV_refl (a : Nat) : byteCV a a = true := by simp [byteCV]

theorem byteCV_cases {a b : Nat} (h : byteCV a b = true) :
    a = b ∨ (65 ≤ a ∧ a ≤ 90 ∧ b = a + 32) ∨ (97 ≤ a ∧ a ≤ 122 ∧ b = a - 32) := by
  simp [byteCV] at h
  tauto

theorem byteCV_high {a b : Nat} (h : byteCV a b = true) (ha : 128 ≤ a) : a = b := by
  rcases byteCV_cases h with h | h | h <;> omega

theorem byteCV_high2 {a b : Nat} (h : byteCV a b = true) (hb : 128 ≤ b) : a = b := by
  rcases byteCV_cases h with h | h | h <;> omega

theorem byteCV_low {a b : Nat} (h : byteCV a b = true) (ha : a < 128) : b < 128 := by
  rcases byteCV_cases h with h | h | h <;> omega

theorem byteCV_upper {a b : Nat} (h : byteCV a b = true) :
    asciiUpperByte a = asciiUpperByte b := by
  unfold asciiUpperByte
  rcases byteCV_cases h with h | h | h <;> (split_ifs <;> omega)

theorem byteCV_contB {a b : Nat} (h : byteCV a b = true) : contB a = contB b := by
  rcases byteCV_cases h with h | h | h
  · rw [h]
  · have h1 : contB a = false := by simp [contB]; omega
    have h2 : contB b = false := by simp [contB]; omega
    rw [h1, h2]
  · have h1 : contB a = false := by simp [contB]; omega
    have h2 : contB b = false := by simp [contB]; omega
    rw [h1, h2]

theorem sndLo_ge (x : Nat) : 128 ≤ sndLo x := by
  unfold sndLo
  split_ifs <;> omega

theorem byteCV_sndOK {x a b : Nat} (h : byteCV a b = true) : sndOK x a = sndOK x b := by
  have hlo := sndLo_ge x
  rcases byteCV_cases h with h | h | h
  · rw [h]
  · have h1 : sndOK x a = false := by simp [sndOK]; omega
    have h2 : sndOK x b = false := by simp [sndOK]; omega
    rw [h1, h2]
  · have h1 : sndOK x a = false := by simp [sndOK]; omega
    have h2 : sndOK x b = false := by simp [sndOK]; omega
    rw [h1, h2]

theorem contB_ge {c : Nat} (h : contB c = true) : 128 ≤ c := by
  simp [contB] at h
  omega

theorem sndOK_ge {x c : Nat} (h : sndOK x c = true) : 128 ≤ c := by
  have := sndLo_ge x
  simp [sndOK] at h
  omega

theorem asciiUpper_cons (a : Nat) (l : List Nat) :
    asciiUpper (a :: l) = asciiUpperByte a :: asciiUpper l := rfl

theorem asciiUpper_append (l1 l2 : List Nat) :
    asciiUpper (l1 ++ l2) = asciiUpper l1 ++ asciiUpper l2 :=
  List.map_append _ _ _

theorem lossy_upper_cv : ∀ (fuel : Nat) (k k' : List Nat), k.length ≤ fuel →
    CaseVariant k k' → asciiUpper (utf8Lossy k) = asciiUpper (utf8Lossy k') := by
  intro fuel
  induction fuel with
  | zero =>
    intro k k' hlen hcv
    cases hcv with
    | nil => rfl
    | cons h1 h2 => simp at hlen
  | succ fuel ih =>
    intro k k' hlen hcv
    cases hcv with
    | nil => rfl
    | @cons a b r r' h1 h2 =>
      simp only [List.length_cons] at hlen
      by_cases ha : a < 128
      · have hb : b < 128 := byteCV_low h1 ha
        rw [utf8Lossy_cons, utf8Lossy_cons, if_pos ha, if_pos hb,
          asciiUpper_cons, asciiUpper_cons, byteCV_upper h1,
          ih r r' (by omega) h2]
      · have hab : a = b := byteCV_high h1 (by omega)
        subst hab
        rw [utf8Lossy_cons, utf8Lossy_cons, if_neg ha, if_neg ha]
        by_cases h2b : (194 ≤ a && a ≤ 223) = true
        · rw [if_pos h2b, if_pos h2b]
          cases h2 with
          | nil => rfl
          | @cons c c' r2 r2' hc hr2 =>
            simp only [List.length_cons] at hlen
            dsimp only
            rw [show contB c = contB c' from byteCV_contB hc]
            by_cases hcont : contB c' = true
            · rw [if_pos hcont, if_pos hcont]
              have hcc : c = c' := byteCV_high2 hc (contB_ge hcont)
              subst hcc
              rw [asciiUpper_cons, asciiUpper_cons, asciiUpper_cons, asciiUpper_cons,
                ih r2 r2' (by omega) hr2]
            · rw [if_neg hcont, if_neg hcont, asciiUpper_append, asciiUpper_append,
                ih (c :: r2) (c' :: r2') (by simp only [List.length_cons]; omega)
                  (List.Forall₂.cons hc hr2)]
        · rw [if_neg h2b, if_neg h2b]
          by_cases h3b : (224 ≤ a && a ≤ 239) = true
          · rw [if_pos h3b, if_pos h3b]
            cases h2 with
            | nil => rfl
            | @cons c c' r2 r2' hc hr2 =>
              simp only [List.length_cons] at hlen
              dsimp only
              rw [show sndOK a c = sndOK a c' from byteCV_sndOK hc]
              by_cases hs : sndOK a c' = true
              · rw [if_pos hs, if_pos hs]
                have hcc : c = c' := byteCV_high2 hc (sndOK_ge hs)
                subst hcc
                cases hr2 with
                | nil => rfl
                | @cons d d' r3 r3' hd hr3 =>
                  simp only [List.length_cons] at hlen
                  dsimp only
                  rw [show contB d = contB d' from byteCV_contB hd]
                  by_cases hcd : contB d' = true
                  · rw [if_pos hcd, if_pos hcd]
                    have hdd : d = d' := byteCV_high2 hd (contB_ge hcd)
                    subst hdd
                    rw [asciiUpper_cons, asciiUpper_cons, asciiUpper_cons,
                      asciiUpper_cons, asciiUpper_cons, asciiUpper_cons,
                      ih r3 r3' (by omega) hr3]
                  · rw [if_neg hcd, if_neg hcd, asciiUpper_append, asciiUpper_append,
                      ih (d :: r3) (d' :: r3') (by simp only [List.length_cons]; omega)
                        (List.Forall₂.cons hd hr3)]
              · rw [if_neg hs, if_neg hs, asciiUpper_append, asciiUpper_append,
                  ih (c :: r2) (c' :: r2') (by simp only [List.length_cons]; omega)
                    (List.Forall₂.cons hc hr2)]
          · rw [if_neg h3b, if_neg h3b]
            by_cases h4b : (240 ≤ a && a ≤ 244) = true
            · rw [if_pos h4b, if_pos h4b]
              cases h2 with
              | nil => rfl
              | @cons c c' r2 r2' hc hr2 =>
                simp only [List.length_cons] at hlen
                dsimp only
                rw [show sndOK a c = sndOK a c' from byteCV_sndOK hc]
                by_cases hs : sndOK a c' = true
                · rw [if_pos hs, if_pos hs]
                  have hcc : c = c' := byteCV_high2 hc (sndOK_ge hs)
                  subst hcc
                  cases hr2 with
                  | nil => rfl
                  | @cons d d' r3 r3' hd hr3 =>
                    simp only [List.length_cons] at hlen
                    dsimp only
                    rw [show contB d = contB d' from byteCV_contB hd]
                    by_cases hcd : contB d' = true
                    · rw [if_pos hcd, if_pos hcd]
                      have hdd : d = d' := byteCV_high2 hd (contB_ge hcd)
                      subst hdd
                      cases hr3 with
                      | nil => rfl
                      | @cons e2 e2' r4 r4' he hr4 =>
                        simp only [List.length_cons] at hlen
                        dsimp only
                        rw [show contB e2 = contB e2' from byteCV_contB he]
                        by_cases hce : contB e2' = true
                        · rw [if_pos hce, if_pos hce]
                          have hee : e2 = e2' := byteCV_high2 he (contB_ge hce)
                          subst hee
                          rw [asciiUpper_cons, asciiUpper_cons, asciiUpper_cons,
                            asciiUpper_cons, asciiUpper_cons, asciiUpper_cons,
                            asciiUpper_cons, asciiUpper_cons,
                            ih r4 r4' (by omega) hr4]
                        · rw [if_neg hce, if_neg hce, asciiUpper_append,
                            asciiUpper_append,
                            ih (e2 :: r4) (e2' :: r4')
                              (by simp only [List.length_cons]; omega)
                              (List.Forall₂.cons he hr4)]
                    · rw [if_neg hcd, if_neg hcd, asciiUpper_append, asciiUpper_append,
                        ih (d :: r3) (d' :: r3') (by simp only [List.length_cons]; omega)
                          (List.Forall₂.cons hd hr3)]
                · rw [if_neg hs, if_neg hs, asciiUpper_append, asciiUpper_append,
                    ih (c :: r2) (c' :: r2') (by simp only [List.length_cons]; omega)
                      (List.Forall₂.cons hc hr2)]
            · rw [if_neg h4b, if_neg h4b, asciiUpper_append, asciiUpper_append,
                ih r r' (by omega) h2]

theorem lossy_of_valid : ∀ (fuel : Nat) (l : List Nat), l.length ≤ fuel →
    isValidUTF8 l = true → utf8Lossy l = l := by
  intro fuel
  induction fuel with
  | zero =>
    intro l hlen hv
    cases l with
    | nil => rfl
    | cons b r => simp at hlen
  | succ fuel ih =>
    intro l hlen hv
    cases l with
    | nil => rfl
    | cons b rest =>
      simp only [List.length_cons] at hlen
      rw [isValidUTF8_cons] at hv
      rw [utf8Lossy_cons]
      by_cases hb : b < 128
      · rw [if_pos hb] at hv ⊢
        rw [ih rest (by omega) hv]
      · rw [if_neg hb] at hv ⊢
        by_cases h2b : (194 ≤ b && b ≤ 223) = true
        · rw [if_pos h2b] at hv ⊢
          cases rest with
          | nil => simp at hv
          | cons c r2 =>
            simp only [List.length_cons] at hlen
            dsimp only at hv ⊢
            simp only [Bool.and_eq_true] at hv
            obtain ⟨hc, hr2⟩ := hv
            rw [if_pos hc, ih r2 (by omega) hr2]
        · rw [if_neg h2b] at hv ⊢
          by_cases h3b : (224 ≤ b && b ≤ 239) = true
          · rw [if_pos h3b] at hv ⊢
            cases rest with
            | nil => simp at hv
            | cons c r2 =>
              simp only [List.length_cons] at hlen
              dsimp only at hv ⊢
              simp only [Bool.and_eq_true] at hv
              obtain ⟨hs, hrest⟩ := hv
              rw [if_pos hs]
              cases r2 with
              | nil => simp at hrest
              | cons d r3 =>
                simp only [List.length_cons] at hlen
                dsimp only at hrest ⊢
                simp only [Bool.and_eq_true] at hrest
                obtain ⟨hd, hr3⟩ := hrest
                rw [if_pos hd, ih r3 (by omega) hr3]
          · rw [if_neg h3b] at hv ⊢
            by_cases h4b : (240 ≤ b && b ≤ 244) = true
            · rw [if_pos h4b] at hv ⊢
              cases rest with
              | nil => simp at hv
              | cons c r2 =>
                simp only [List.length_cons] at hlen
                dsimp only at hv ⊢
                simp only [Bool.and_eq_true] at hv
                obtain ⟨hs, hrest⟩ := hv
                rw [if_pos hs]
                cases r2 with
                | nil => simp at hrest
                | cons d r3 =>
                  simp only [List.length_cons] at hlen
                  dsimp only at hrest ⊢
                  simp only [Bool.and_eq_true] at hrest
                  obtain ⟨hd, hrest2⟩ := hrest
                  rw [if_pos hd]
                  cases r3 with
                  | nil => simp at hrest2
                  | cons e2 r4 =>
                    simp only [List.length_cons] at hlen
                    dsimp only at hrest2 ⊢
                    simp only [Bool.and_eq_true] at hrest2
                    obtain ⟨he, hr4⟩ := hrest2
                    rw [if_pos he, ih r4 (by omega) hr4]
            · rw [if_neg h4b] at hv
              simp at hv

theorem isValidUTF8_lossy_id {l : List Nat} (h : isValidUTF8 l = true) :
    utf8Lossy l = l :=
  lossy_of_valid l.length l (le_refl _) h

theorem normalizeKey_cv {k k' : List Nat} (h : CaseVariant k k') :
    normalizeKey k = normalizeKey k' :=
  lossy_upper_cv k.length k k' (le_refl _) h

/-- Counterexample to C1 as stated: storing the non-UTF-8 value `[0xFF]`
under key `k` and immediately reading it back does not return the value as a
bulk string — `Get::execute` formats the lossy decoding, so the reply is
`$3\r\n` followed by the three replacement-character bytes. -/
theorem set_get_raw_bytes_cex :
    (getExecute [107] ((setExecute [107] [255] none emptyDb 0).snd) 0).fst ≠
        bulkEnc [255] ∧
      (getExecute [107] ((setExecute [107] [255] none emptyDb 0).snd) 0).fst =
        [36, 51, 13, 10, 239, 191, 189, 13, 10] :=
  ⟨by decide, rfl⟩

/-- C1 (amended): for every key `k` and every *valid-UTF-8* value `v`,
`SET k v` followed immediately by `GET` (no intervening command, no expiry)
returns `v` encoded as a bulk string, and keys are case-insensitive: `GET`
with any ASCII case variant of `k` also returns `v`. -/
theorem set_get_caseInsensitive {db : Db} {now now' : Nat} {k k' v : List Nat}
    (hcv : CaseVariant k k') (hv : isValidUTF8 v = true) :
    (getExecute k' ((setExecute k v none db now).snd) now').fst = bulkEnc v := by
  have hk : normalizeKey k' = normalizeKey k := (normalizeKey_cv hcv).symm
  have hlossy : utf8Lossy v = v := isValidUTF8_lossy_id hv
  unfold setExecute getExecute
  dsimp only
  rw [hk]
  rw [show dbInsert (normalizeKey k) ⟨v, Option.map (fun ms => now + ms) none⟩ db
      (normalizeKey k) = some ⟨v, none⟩ from by simp [dbInsert]]
  dsimp only
  rw [hlossy]

/-- Witness for the amended C1: `SET key hi` then `GET KEY` returns
`$2\r\nhi\r\n`. -/
theorem set_get_caseInsensitive_witness :
    CaseVariant [107, 101, 121] [75, 69, 89] ∧ isValidUTF8 [104, 105] = true ∧
      (getExecute [75, 69, 89]
          ((setExecute [107, 101, 121] [104, 105] none emptyDb 0).snd) 9).fst =
        bulkEnc [104, 105] := by
  have hcv : CaseVariant [107, 101, 121] [75, 69, 89] :=
    List.Forall₂.cons (by decide)
      (List.Forall₂.cons (by decide) (List.Forall₂.cons (by decide) List.Forall₂.nil))
  exact ⟨hcv, rfl, set_get_caseInsensitive hcv rfl⟩
